import Mathlib

/-!
Verification of the Splendor-like game engine and its alpha-beta agent.

The definitions below are a shallow embedding of the Rust sources:
  * `game-def/src/lib.rs` — the rules engine (`ResourceKind`, `ResourceMap`,
    `Player`, `Card`, `State`, `Action`, `State::run`, enumeration helpers);
  * `alpha-beta-agent/src/main.rs` — move generation (`moves`), the heuristic
    and the alpha-beta search (`max_score`).

Modelling conventions:
  * `usize`/`u8` counts are modelled as `Int`; every subtraction in the engine
    is guarded in the source, and non-negativity is proved as a theorem
    rather than being forced by the type.
  * `State::run` takes `&mut self` and returns `Result<()>`; it is modelled as
    a pure function `State → Action → State × Bool` whose first component is
    the state after the call (including any partial mutation the source
    performs before bailing) and whose second component is `true` exactly for
    `Ok(())`.  An out-of-range `self.players[self.turn]` access panics in the
    source; the model returns `(s, false)` there, and theorems that depend on
    this carry the hypothesis `turn < players.length`.
  * `Player::purchase` similarly returns its partially-mutated
    `(player, bank coins, bank wilds)` triple together with the success bit.
-/

set_option maxHeartbeats 2000000

namespace Splendor

/-- `ResourceKind` from game-def: five gem colors, in declaration order. -/
inductive ResourceKind where
  | Red
  | Blue
  | Green
  | White
  | Black
deriving DecidableEq, Repr, Fintype

open ResourceKind

/-- The enumeration order of `EnumMap<ResourceKind, _>`: declaration order. -/
def kindList : List ResourceKind := [Red, Blue, Green, White, Black]

/-- `ResourceMap`: one `usize` slot per kind (modelled as `Int`). -/
structure ResourceMap where
  red : Int
  blue : Int
  green : Int
  white : Int
  black : Int
deriving DecidableEq, Repr

/-- Indexing `map[kind]`. -/
def ResourceMap.get (m : ResourceMap) : ResourceKind → Int
  | Red => m.red
  | Blue => m.blue
  | Green => m.green
  | White => m.white
  | Black => m.black

/-- Mutating `map[kind] = v`. -/
def ResourceMap.set (m : ResourceMap) (r : ResourceKind) (v : Int) : ResourceMap :=
  match r with
  | Red => { m with red := v }
  | Blue => { m with blue := v }
  | Green => { m with green := v }
  | White => { m with white := v }
  | Black => { m with black := v }

/-- `ResourceMap::new`: all slots zero. -/
def ResourceMap.new : ResourceMap := ⟨0, 0, 0, 0, 0⟩

/-- `ResourceMap::add`: element-wise addition of `adds` into `self`. -/
def ResourceMap.add (m adds : ResourceMap) : ResourceMap :=
  ⟨m.red + adds.red, m.blue + adds.blue, m.green + adds.green,
   m.white + adds.white, m.black + adds.black⟩

/-- `ResourceMap::sum`: the sum of all five slots. -/
def ResourceMap.sum (m : ResourceMap) : Int :=
  m.red + m.blue + m.green + m.white + m.black

/-- `usize::saturating_sub` on the Int model. -/
def satSub (a b : Int) : Int := if a ≤ b then 0 else a - b

/-- `Card` from game-def: cost, score, and the production it adds. -/
structure Card where
  cost : ResourceMap
  score : Int
  adds : ResourceMap
deriving DecidableEq, Repr

/-- `Card::new`: one unit of production of the given color. -/
def Card.new (color : ResourceKind) (score : Int) (cost : ResourceMap) : Card :=
  { cost := cost, score := score, adds := ResourceMap.new.set color 1 }

/-- `Player` from game-def. -/
structure Player where
  mortal : ResourceMap
  immortal : ResourceMap
  score : Int
  reserved : List Card
  wilds : Int
  display_name : String
deriving DecidableEq, Repr

/-- `Player::new`. -/
def Player.new (name : String) : Player :=
  { mortal := ResourceMap.new, immortal := ResourceMap.new, score := 0,
    reserved := [], wilds := 0, display_name := name }

/-- `Player::can_purchase`: the per-kind shortfall after permanent and
spendable holdings, summed over all kinds, must be covered by wilds. -/
def Player.can_purchase (p : Player) (cost : ResourceMap) : Bool :=
  decide ((kindList.map fun r =>
    satSub (cost.get r) (p.immortal.get r + p.mortal.get r)).sum ≤ p.wilds)

/-- The loop body of `Player::purchase`, iterating the cost map in
enumeration order.  On each kind it settles spendable coins first, then
wilds; it returns the (possibly partially mutated) player, bank coins and
bank wilds together with the success bit (`false` models the
`bail!("Not enough resources")`). -/
def purchaseGo : List ResourceKind → ResourceMap → Player → ResourceMap → Int →
    ((Player × ResourceMap × Int) × Bool)
  | [], _, p, coins, wilds => ((p, coins, wilds), true)
  | r :: rest, cost, p, coins, wilds =>
    let t := satSub (cost.get r) (p.immortal.get r)
    if p.mortal.get r < t then
      if p.wilds < t - p.mortal.get r then ((p, coins, wilds), false)
      else
        purchaseGo rest cost
          { p with wilds := p.wilds - (t - p.mortal.get r),
                   mortal := p.mortal.set r 0 }
          (coins.set r (coins.get r + p.mortal.get r))
          (wilds + (t - p.mortal.get r))
    else
      purchaseGo rest cost
        { p with mortal := p.mortal.set r (p.mortal.get r - t) }
        (coins.set r (coins.get r + t))
        wilds

/-- `Player::purchase`.  Arguments mirror `(&mut self, cost, state_coins,
state_wilds)`; the result carries the mutated triple and the success bit. -/
def Player.purchase (p : Player) (cost : ResourceMap) (state_coins : ResourceMap)
    (state_wilds : Int) : ((Player × ResourceMap × Int) × Bool) :=
  purchaseGo kindList cost p state_coins state_wilds

/-- `Nobel`.  Modelled from the spec: the spec's data model (§3) gives a
Nobel a cost in card-resource holdings and a fixed score reward, and the
agent's heuristic reads a `state.nobels` list, but neither the `Nobel`
struct nor a `nobels` field exists in `game-def/src/lib.rs`. -/
structure Nobel where
  cost : ResourceMap
  score : Int
deriving DecidableEq, Repr

/-- `State` from game-def.  The `nobels` field is modelled from the spec
(§3: the state owns the optional, ruleset-dependent list of Nobels; the
agent's heuristic iterates `state.nobels`), since it is absent from
`game-def`'s `State`; the rules engine below never touches it. -/
structure State where
  decks : List (List Card)
  players : List Player
  coins : ResourceMap
  wilds : Int
  turn : Nat
  nobels : List Nobel
deriving DecidableEq, Repr

/-- `MAX_DECK_SHOW`: the visible window size of each deck. -/
def MAX_DECK_SHOW : Nat := 4

/-- `Action` from game-def. -/
inductive Action where
  | PickThree (one two three : ResourceKind)
  | PickTwo (color : ResourceKind)
  | Purchase (deck card : Nat)
  | PurchaseReserved (index : Nat)
  | Reserve (deck card : Nat)
  | Skip
deriving DecidableEq, Repr

/-- `State::is_finished`. -/
def State.is_finished (s : State) : Bool :=
  s.turn == 0 && s.players.any fun x => decide (14 < x.score)

/-- The fold inside Rust's `Iterator::max_by_key`: when several elements
are equally maximal, the last one is kept. -/
def winnerAux : (Nat × Player) → List (Nat × Player) → (Nat × Player)
  | best, [] => best
  | best, x :: rest => winnerAux (if best.2.score ≤ x.2.score then x else best) rest

/-- `State::winner`: `players.iter().enumerate().max_by_key(score).unwrap().0`.
The `unwrap` panics on an empty player list; the model returns 0 there and
theorems carry a non-emptiness hypothesis. -/
def State.winner (s : State) : Nat :=
  match s.players.enum with
  | [] => 0
  | x :: rest => (winnerAux x rest).1

/-- `State::change_player`: advance the turn pointer, wrapping at the end
of the player list. -/
def State.change_player (s : State) : State :=
  if s.turn + 1 = s.players.length then { s with turn := 0 }
  else { s with turn := s.turn + 1 }

/-- The loop body of the `PickThree` arm: take one coin of each kind in
order, bailing (with the mutations made so far kept) when a kind is
exhausted. -/
def pickGo : List ResourceKind → ResourceMap → Player → ((ResourceMap × Player) × Bool)
  | [], coins, p => ((coins, p), true)
  | item :: rest, coins, p =>
    if coins.get item = 0 then ((coins, p), false)
    else pickGo rest (coins.set item (coins.get item - 1))
      { p with mortal := p.mortal.set item (p.mortal.get item + 1) }

/-- `State::run`: the single validated transition entry point.  Returns the
state after the call together with the success bit. -/
def State.run (s : State) (a : Action) : State × Bool :=
  match s.players[s.turn]? with
  | none => (s, false)
  | some player =>
    match a with
    | .PickThree one two three =>
      if one = two ∨ one = three ∨ two = three then (s, false)
      else
        let r := pickGo [one, two, three] s.coins player
        let s1 := { s with coins := r.1.1, players := s.players.set s.turn r.1.2 }
        if r.2 then (s1.change_player, true) else (s1, false)
    | .PickTwo color =>
      if s.coins.get color < 4 then (s, false)
      else
        (State.change_player
          { s with coins := s.coins.set color (s.coins.get color - 2),
                   players := s.players.set s.turn
                     { player with mortal :=
                        player.mortal.set color (player.mortal.get color + 2) } }, true)
    | .Purchase deck card =>
      match s.decks[deck]? with
      | none => (s, false)
      | some d =>
        if MAX_DECK_SHOW ≤ card then (s, false)
        else
          match d[card]? with
          | none => (s, false)
          | some c =>
            if player.can_purchase c.cost then
              let pr := player.purchase c.cost s.coins s.wilds
              let p1 := pr.1.1
              if pr.2 then
                let p2 := { p1 with immortal := p1.immortal.add c.adds,
                                    score := p1.score + c.score }
                (State.change_player
                  { s with players := s.players.set s.turn p2,
                           coins := pr.1.2.1, wilds := pr.1.2.2,
                           decks := s.decks.set deck (d.eraseIdx card) }, true)
              else
                ({ s with players := s.players.set s.turn p1,
                          coins := pr.1.2.1, wilds := pr.1.2.2 }, false)
            else (s, false)
    | .PurchaseReserved index =>
      match player.reserved[index]? with
      | none => (s, false)
      | some c =>
        if player.can_purchase c.cost then
          let p0 := { player with reserved := player.reserved.eraseIdx index }
          let pr := p0.purchase c.cost s.coins s.wilds
          let p1 := pr.1.1
          if pr.2 then
            let p2 := { p1 with immortal := p1.immortal.add c.adds,
                                score := p1.score + c.score }
            (State.change_player
              { s with players := s.players.set s.turn p2,
                       coins := pr.1.2.1, wilds := pr.1.2.2 }, true)
          else
            ({ s with players := s.players.set s.turn p1,
                      coins := pr.1.2.1, wilds := pr.1.2.2 }, false)
        else (s, false)
    | .Reserve deck card =>
      match s.decks[deck]? with
      | none => (s, false)
      | some d =>
        if MAX_DECK_SHOW ≤ card then (s, false)
        else
          match d[card]? with
          | none => (s, false)
          | some c =>
            (State.change_player
              { s with decks := s.decks.set deck (d.eraseIdx card),
                       players := s.players.set s.turn
                         { player with reserved := player.reserved ++ [c] } }, true)
    | .Skip => (s.change_player, true)

/-- `State::card_iter`: the addressable visible (deck, slot) pairs. -/
def State.card_iter (s : State) : List (Nat × Nat) :=
  (List.range s.decks.length).flatMap fun x =>
    (List.range (min MAX_DECK_SHOW (s.decks.getD x []).length)).map fun y => (x, y)

/-- `State::pick_two_iter`: kinds with at least four coins in the bank. -/
def State.pick_two_iter (s : State) : List ResourceKind :=
  kindList.filter fun r => decide (4 ≤ s.coins.get r)

/-- The fixed `CANDIDATES` table of `State::pick_three_iter`. -/
def CANDIDATES : List (ResourceKind × ResourceKind × ResourceKind) :=
  [(Red, Green, Blue), (Red, Green, White), (Red, Green, Black),
   (Red, Blue, White), (Red, Blue, Black), (Red, White, Black),
   (Green, Blue, White), (Green, Blue, Black), (Green, White, Black),
   (Blue, Black, White)]

/-- `State::pick_three_iter`. -/
def State.pick_three_iter (_s : State) : List (ResourceKind × ResourceKind × ResourceKind) :=
  CANDIDATES

/-! ## The alpha-beta agent: move generation, heuristic, search -/

/-- The body of each loop of `moves`: clone the state, attempt to apply the
action, keep the (resulting state, action) pair only when it succeeds. -/
def specApply (state : State) (action : Action) : Option (State × Action) :=
  let r := state.run action
  if r.2 then some (r.1, action) else none

/-- The first loop of `moves`: speculative `Purchase` over the visible cards. -/
def movesPurchase (state : State) : List (State × Action) :=
  state.card_iter.filterMap fun dc => specApply state (Action.Purchase dc.1 dc.2)

/-- The second loop of `moves`: speculative `PurchaseReserved` over the acting
player's reserved list.  `state.players[state.turn]` panics in the source when
the turn index is out of range; the model uses zero reserved cards there. -/
def movesPurchaseReserved (state : State) : List (State × Action) :=
  (List.range (match state.players[state.turn]? with
    | some p => p.reserved.length
    | none => 0)).filterMap fun index => specApply state (Action.PurchaseReserved index)

/-- The third loop of `moves`: speculative `PickThree` over the candidate
triples. -/
def movesPickThree (state : State) : List (State × Action) :=
  state.pick_three_iter.filterMap fun ott =>
    specApply state (Action.PickThree ott.1 ott.2.1 ott.2.2)

/-- The fourth loop of `moves`: speculative `PickTwo`. -/
def movesPickTwo (state : State) : List (State × Action) :=
  state.pick_two_iter.filterMap fun color => specApply state (Action.PickTwo color)

/-- The fifth loop of `moves`: speculative `Reserve` over the visible cards. -/
def movesReserve (state : State) : List (State × Action) :=
  state.card_iter.filterMap fun dc => specApply state (Action.Reserve dc.1 dc.2)

/-- `moves` from the alpha-beta agent: the five speculative loops, pushed in
this fixed order. -/
def moves (state : State) : List (State × Action) :=
  movesPurchase state ++ movesPurchaseReserved state ++ movesPickThree state ++
    movesPickTwo state ++ movesReserve state

/-- The inner iterator of the heuristic's nobel term:
`player.immortal.0.iter().map(|(c, v)| *v - n.cost[c]).sum::<usize>()`.
The per-kind `usize` subtraction is unguarded in the source, so it panics
under checked arithmetic whenever a nobel cost component exceeds the
player's permanent holding of that kind; the model returns `none` there,
the same panic-as-failure convention used for the index panics.  Where no
component underflows, the sum is computed exactly. -/
def nobelShortfall : List ResourceKind → Player → Nobel → Option Int
  | [], _, _ => some 0
  | c :: rest, p, n =>
    if p.immortal.get c < n.cost.get c then none
    else
      match nobelShortfall rest p n with
      | none => none
      | some t => some (p.immortal.get c - n.cost.get c + t)

/-- The heuristic's nobel loop: for each nobel, `1000 >> t` where `t` is the
shortfall sum above.  `1000` is an `i32`, so the shift panics under checked
arithmetic when `t ≥ 32`; the model returns `none` there, and computes
`1000 / 2^t` (the exact value of the shift) otherwise.  The final
`sum::<i32>()` is modelled exactly, per the unbounded-count convention used
throughout this file. -/
def nobelBonus : List Nobel → Player → Option Int
  | [], _ => some 0
  | n :: rest, p =>
    match nobelShortfall kindList p n with
    | none => none
    | some t =>
      if 32 ≤ t then none
      else
        match nobelBonus rest p with
        | none => none
        | some b => some ((1000 : Int) / 2 ^ t.toNat + b)

/-- `player_heuristic` from the alpha-beta agent.  `(1 << player.score)` is
an `i32` shift by the `u8` score, which panics under checked arithmetic when
the score reaches 32; the model returns `none` there (the search only
evaluates the heuristic at seat 0 of unfinished states, where every score is
at most 14, so this guard never fires along the search).  The `as i32`
casts and the additions are modelled exactly on `Int`, per the
unbounded-count convention used throughout this file; the nobel term
(`Nobel` itself is modelled from the spec, see above) keeps its reachable
checked-arithmetic failures via `nobelShortfall` and `nobelBonus`.  Release
builds wrap the subtraction and mask the shifts instead of panicking; the
model follows the checked (panicking) semantics, consistently with the
other panics in this file. -/
def player_heuristic (state : State) (player : Player) : Option Int :=
  if 32 ≤ player.score then none
  else
    match nobelBonus state.nobels player with
    | none => none
    | some b =>
      some (player.mortal.sum * 3 + player.wilds * 4 + player.immortal.sum * 100 +
        2 ^ player.score.toNat * 10 + b)

/-- `heuristic` from the alpha-beta agent: seat 0 minus seat 1.  Indexing
`state.players[0]` / `state.players[1]` panics when fewer than two players
exist, and each side's `player_heuristic` can itself panic; the model
returns `none` in all those cases. -/
def heuristic (state : State) : Option Int :=
  match state.players[0]?, state.players[1]? with
  | some a, some b =>
    match player_heuristic state a, player_heuristic state b with
    | some ha, some hb => some (ha - hb)
    | _, _ => none
  | _, _ => none

/-! ### Lemmas needed to define `max_score` by well-founded recursion -/

theorem change_player_turn (s : State) (h : s.turn < s.players.length) :
    (s.change_player).turn = (s.turn + 1) % s.players.length := by
  unfold State.change_player
  by_cases hc : s.turn + 1 = s.players.length
  · rw [if_pos hc]
    show 0 = (s.turn + 1) % s.players.length
    rw [hc, Nat.mod_self]
  · rw [if_neg hc]
    show s.turn + 1 = (s.turn + 1) % s.players.length
    exact (Nat.mod_eq_of_lt (by omega)).symm

theorem change_player_players (s : State) :
    (s.change_player).players = s.players := by
  unfold State.change_player
  split <;> rfl

theorem change_player_shape (s s' : State)
    (hpl : s'.players.length = s.players.length) (ht : s'.turn = s.turn)
    (hlt : s.turn < s.players.length) :
    (s'.change_player).players.length = s.players.length ∧
      (s'.change_player).turn = (s.turn + 1) % s.players.length := by
  constructor
  · rw [change_player_players]; exact hpl
  · rw [change_player_turn s' (by omega), ht, hpl]

/-- Successful `run` calls happen only with a valid turn index, preserve the
player count, and advance the turn by one modulo the player count. -/
theorem run_ok_shape (s : State) (a : Action) (st : State)
    (h : s.run a = (st, true)) :
    s.turn < s.players.length ∧ st.players.length = s.players.length ∧
      st.turn = (s.turn + 1) % s.players.length := by
  unfold State.run at h
  rcases hp : s.players[s.turn]? with _ | player
  · rw [hp] at h; simp at h
  · have hlt : s.turn < s.players.length := (List.getElem?_eq_some_iff.mp hp).1
    rw [hp] at h
    refine ⟨hlt, ?_⟩
    cases a <;>
      (try dsimp only at h) <;>
      (repeat' split at h) <;>
      (injection h with h1 h2) <;>
      first
      | exact Bool.noConfusion h2
      | (subst h1
         exact change_player_shape s _ (by simp) rfl hlt)

/-- `specApply` keeps exactly the successful applications, paired with the
resulting state. -/
theorem specApply_eq_some (s : State) (a : Action) (x : State × Action) :
    specApply s a = some x ↔ x.2 = a ∧ s.run a = (x.1, true) := by
  unfold specApply
  rcases hr : s.run a with ⟨rs, ok⟩
  simp only [hr]
  cases ok
  · simp
  · cases x with
    | mk x1 x2 =>
      constructor
      · rintro h
        injection h with h'
        injection h' with ha hb
        subst ha; subst hb
        exact ⟨rfl, rfl⟩
      · rintro ⟨h2, h1⟩
        injection h1 with ha hb
        subst h2; subst ha
        rfl

/-- Every pair produced by `moves` is a successful speculative application. -/
theorem mem_moves_run (s : State) (x : State × Action) (h : x ∈ moves s) :
    s.run x.2 = (x.1, true) := by
  unfold moves movesPurchase movesPurchaseReserved movesPickThree movesPickTwo
    movesReserve at h
  simp only [List.mem_append, List.mem_filterMap] at h
  rcases h with ((((⟨dc, -, hmem⟩ | ⟨i, -, hmem⟩) | ⟨t3, -, hmem⟩) | ⟨c2, -, hmem⟩) | ⟨dc, -, hmem⟩) <;>
    (obtain ⟨hx2, hrun⟩ := (specApply_eq_some s _ x).mp hmem
     rw [hx2]
     exact hrun)

/-- The number of further plies until the turn pointer is back at seat 0. -/
def stepsTo0 (n t : Nat) : Nat := if t = 0 then 0 else n - t

/-- Termination measure for the alpha-beta search: the depth budget only
shrinks at seat 0, but the distance back to seat 0 shrinks on every other
ply. -/
def searchMeasure (s : State) (depth : Int) : Nat :=
  s.players.length * (depth.toNat + 1) + stepsTo0 s.players.length s.turn

theorem searchMeasure_lt (s st : State) (a : Action) (depth : Int)
    (h : s.run a = (st, true)) (hg : ¬(s.turn = 0 ∧ depth ≤ 0)) :
    searchMeasure st (depth - 1) < searchMeasure s depth := by
  obtain ⟨hlt, hlen, hturn⟩ := run_ok_shape s a st h
  unfold searchMeasure
  rw [hlen, hturn]
  by_cases ht0 : s.turn = 0
  · have hd : 0 < depth := by
      rcases not_and_or.mp hg with h1 | h2
      · exact absurd ht0 h1
      · omega
    rw [ht0]
    by_cases hn1 : s.players.length = 1
    · rw [hn1]
      simp [stepsTo0]
      omega
    · have hn2 : 2 ≤ s.players.length := by omega
      rw [Nat.mod_eq_of_lt (by omega)]
      unfold stepsTo0
      rw [if_neg (by omega), if_pos rfl]
      have hdd : (depth - 1).toNat + 1 = depth.toNat := by omega
      rw [hdd, Nat.add_zero]
      calc s.players.length * depth.toNat + (s.players.length - 1)
          < s.players.length * depth.toNat + s.players.length := by omega
        _ = s.players.length * (depth.toNat + 1) := by ring
  · have hsteps : stepsTo0 s.players.length ((s.turn + 1) % s.players.length) <
        stepsTo0 s.players.length s.turn := by
      unfold stepsTo0
      by_cases hc : s.turn + 1 = s.players.length
      · rw [hc, Nat.mod_self, if_pos rfl, if_neg ht0]
        omega
      · rw [Nat.mod_eq_of_lt (by omega), if_neg (by omega), if_neg ht0]
        omega
    have hmul : s.players.length * ((depth - 1).toNat + 1) ≤
        s.players.length * (depth.toNat + 1) :=
      Nat.mul_le_mul_left _ (by omega)
    exact add_lt_add_of_le_of_lt hmul hsteps

mutual

/-- `max_score` from the alpha-beta agent: negamax with alpha-beta pruning.
Returns `none` where the source panics (the heuristic indexes
`players[0]` and `players[1]`). -/
def max_score (s : State) (depth : Int) (alpha beta : Int) : Option (Int × Action) :=
  if s.is_finished then
    if s.winner = 0 then some (1000000000, Action.Skip)
    else some (-1000000000, Action.Skip)
  else if hg : s.turn = 0 ∧ depth ≤ 0 then
    (heuristic s).map fun h => (h, Action.Skip)
  else
    maxScoreGo s depth beta hg ((moves s).attach) alpha (-1000000001, Action.Skip)
termination_by (searchMeasure s depth, (moves s).length + 1)
decreasing_by
  apply Prod.Lex.right
  simp

/-- The `for (st, ac) in moves(state)` loop of `max_score`: `r` is the best
(score, action) pair so far, `alpha` the running lower bound; a score
reaching `beta` breaks out of the loop. -/
def maxScoreGo (s : State) (depth beta : Int) (hg : ¬(s.turn = 0 ∧ depth ≤ 0))
    (l : List {x : State × Action // x ∈ moves s}) (alpha : Int)
    (r : Int × Action) : Option (Int × Action) :=
  match l with
  | [] => some r
  | x :: rest =>
    match max_score x.1.1 (depth - 1) (-beta) (-alpha) with
    | none => none
    | some v =>
      let score := -v.1
      if r.1 < score then
        if beta ≤ score then some (score, x.1.2)
        else maxScoreGo s depth beta hg rest (max alpha score) (score, x.1.2)
      else maxScoreGo s depth beta hg rest alpha r
termination_by (searchMeasure s depth, l.length)
decreasing_by
  · apply Prod.Lex.left
    exact searchMeasure_lt s x.1.1 x.1.2 depth (mem_moves_run s x.1 x.2) hg
  · apply Prod.Lex.right
    simp
  · apply Prod.Lex.right
    simp

end

end Splendor

namespace Splendor

/-! ## Concrete sample states used by witnesses and counterexamples -/

/-- Shorthand for building a `ResourceMap` from its five slots. -/
def rmOf (r b g w k : Int) : ResourceMap := ⟨r, b, g, w, k⟩

/-- A fresh player. -/
def pBase : Player := Player.new ""

/-- Two fresh players, a bank with four red and four blue coins. -/
def sPick : State :=
  { decks := [], players := [pBase, pBase], coins := rmOf 4 4 0 0 0,
    wilds := 0, turn := 0, nobels := [] }

/-- Two players tied at score 15, turn back at seat 0. -/
def sTie : State :=
  { decks := [], players := [{ pBase with score := 15 }, { pBase with score := 15 }],
    coins := rmOf 0 0 0 0 0, wilds := 0, turn := 0, nobels := [] }

/-- One red and one blue coin in the bank, green exhausted: a `PickThree`
of red, blue, green fails after moving the red and blue coins. -/
def sPartial : State :=
  { decks := [], players := [pBase], coins := rmOf 1 1 0 0 0,
    wilds := 0, turn := 0, nobels := [] }

/-- One coin of every kind: every distinct triple can be picked, but no
`PickTwo` is legal and there are no cards. -/
def sOnes : State :=
  { decks := [], players := [pBase], coins := rmOf 1 1 1 1 1,
    wilds := 0, turn := 0, nobels := [] }

/-- A single deck holding one card that costs one red coin, and a player
who owns exactly one red coin. -/
def sCard : State :=
  { decks := [[{ cost := rmOf 1 0 0 0 0, score := 1, adds := rmOf 0 1 0 0 0 }]],
    players := [{ pBase with mortal := rmOf 1 0 0 0 0 }, pBase],
    coins := rmOf 0 0 0 0 0, wilds := 0, turn := 0, nobels := [] }

/-- Two fresh players and an empty board: no legal generated move. -/
def sEmpty2 : State :=
  { decks := [], players := [pBase, pBase], coins := rmOf 0 0 0 0 0,
    wilds := 0, turn := 0, nobels := [] }

/-- Two fresh players and one nobel costing one red card: the heuristic's
nobel subtraction underflows at the first kind. -/
def sNobel : State :=
  { decks := [], players := [pBase, pBase], coins := rmOf 0 0 0 0 0,
    wilds := 0, turn := 0, nobels := [{ cost := rmOf 1 0 0 0 0, score := 3 }] }

/-! ## Basic lemmas about the resource maps and list updates -/

theorem get_set_same (m : ResourceMap) (r : ResourceKind) (v : Int) :
    (m.set r v).get r = v := by
  cases r <;> rfl

theorem get_set_ne (m : ResourceMap) (r r' : ResourceKind) (v : Int)
    (h : r ≠ r') : (m.set r v).get r' = m.get r' := by
  cases r <;> cases r' <;> first | rfl | exact absurd rfl h

theorem sum_set (m : ResourceMap) (r : ResourceKind) (v : Int) :
    (m.set r v).sum = m.sum - m.get r + v := by
  cases r <;> simp [ResourceMap.set, ResourceMap.get, ResourceMap.sum] <;> ring

theorem set_getElem_self {α : Type} :
    ∀ (l : List α) (i : Nat) (x : α), l[i]? = some x → l.set i x = l
  | [], i, x, h => by simp at h
  | a :: as, 0, x, h => by
    simp at h
    simp [List.set, h]
  | a :: as, (i + 1), x, h => by
    simp only [List.getElem?_cons_succ] at h
    simp only [List.set]
    rw [set_getElem_self as i x h]

theorem map_sum_set {α : Type} (f : α → Int) :
    ∀ (l : List α) (i : Nat) (x : α) (hi : i < l.length),
      ((l.set i x).map f).sum = (l.map f).sum - f (l.getD i x) + f x
  | [], i, x, hi => by simp at hi
  | a :: as, 0, x, hi => by
    simp [List.set]
    ring
  | a :: as, (i + 1), x, hi => by
    simp only [List.set, List.map_cons, List.sum_cons, List.getD_cons_succ]
    rw [map_sum_set f as i x (by simpa using hi)]
    ring

/-! ## Lemmas about the `max_by_key` fold used by `winner` -/

theorem winnerAux_mem (best : Nat × Player) (l : List (Nat × Player)) :
    winnerAux best l = best ∨ winnerAux best l ∈ l := by
  induction l generalizing best with
  | nil => exact .inl rfl
  | cons x rest ih =>
    simp only [winnerAux]
    rcases ih (if best.2.score ≤ x.2.score then x else best) with h | h
    · rw [h]
      split
      · exact .inr (List.mem_cons_self x rest)
      · exact .inl rfl
    · exact .inr (List.mem_cons_of_mem x h)

theorem winnerAux_score_le (best : Nat × Player) (l : List (Nat × Player)) :
    best.2.score ≤ (winnerAux best l).2.score ∧
      ∀ x ∈ l, x.2.score ≤ (winnerAux best l).2.score := by
  induction l generalizing best with
  | nil => simp [winnerAux]
  | cons x rest ih =>
    simp only [winnerAux]
    obtain ⟨h1, h2⟩ := ih (if best.2.score ≤ x.2.score then x else best)
    constructor
    · by_cases hc : best.2.score ≤ x.2.score
      · rw [if_pos hc] at h1 ⊢; exact le_trans hc h1
      · rw [if_neg hc] at h1 ⊢; exact h1
    · intro y hy
      rcases List.mem_cons.mp hy with rfl | hy'
      · by_cases hc : best.2.score ≤ y.2.score
        · rw [if_pos hc] at h1 ⊢; exact h1
        · rw [if_neg hc] at h1 ⊢; exact le_trans (le_of_not_le hc) h1
      · exact h2 y hy'

theorem winnerAux_last (best : Nat × Player) (l : List (Nat × Player))
    (hb : ∀ x ∈ l, best.1 < x.1) (hp : l.Pairwise fun a b => a.1 < b.1) :
    ∀ y, (y = best ∨ y ∈ l) → (winnerAux best l).1 < y.1 →
      y.2.score < (winnerAux best l).2.score := by
  induction l generalizing best with
  | nil =>
    intro y hy hlt
    rcases hy with rfl | hy
    · simp only [winnerAux] at hlt
      exact absurd hlt (lt_irrefl _)
    · exact absurd hy (List.not_mem_nil y)
  | cons x rest ih =>
    intro y hy hlt
    simp only [winnerAux] at hlt ⊢
    have hb' : ∀ z ∈ rest, (if best.2.score ≤ x.2.score then x else best).1 < z.1 := by
      intro z hz
      split
      · exact (List.pairwise_cons.mp hp).1 z hz
      · exact hb z (List.mem_cons_of_mem x hz)
    have hp' := (List.pairwise_cons.mp hp).2
    rcases hy with rfl | hy'
    · exfalso
      by_cases hc : y.2.score ≤ x.2.score
      · rcases winnerAux_mem (if y.2.score ≤ x.2.score then x else y) rest with hm | hm
        · rw [hm, if_pos hc] at hlt
          exact absurd hlt (not_lt.mpr (le_of_lt (hb x (List.mem_cons_self x rest))))
        · have h1 := hb' _ hm
          rw [if_pos hc] at h1 hlt
          exact absurd (lt_trans (hb x (List.mem_cons_self x rest)) h1)
            (not_lt.mpr (le_of_lt hlt))
      · rcases winnerAux_mem (if y.2.score ≤ x.2.score then x else y) rest with hm | hm
        · rw [hm, if_neg hc] at hlt
          exact absurd hlt (lt_irrefl _)
        · have h1 := hb' _ hm
          rw [if_neg hc] at h1 hlt
          exact absurd (lt_trans hlt h1) (lt_irrefl _)
    · rcases List.mem_cons.mp hy' with rfl | hy2
      · by_cases hc : best.2.score ≤ y.2.score
        · exfalso
          rcases winnerAux_mem (if best.2.score ≤ y.2.score then y else best) rest with hm | hm
          · rw [hm, if_pos hc] at hlt
            exact absurd hlt (lt_irrefl _)
          · have h1 := hb' _ hm
            rw [if_pos hc] at h1 hlt
            exact absurd (lt_trans hlt h1) (lt_irrefl _)
        · have h1 := (winnerAux_score_le (if best.2.score ≤ y.2.score then y else best) rest).1
          rw [if_neg hc] at h1 ⊢
          exact lt_of_lt_of_le (lt_of_not_le hc) h1
      · exact ih (if best.2.score ≤ x.2.score then x else best) hb' hp' y (.inr hy2) hlt

theorem enumFrom_fst_lt {α : Type} :
    ∀ (l : List α) (n : Nat), ∀ x ∈ List.enumFrom n l, n ≤ x.1 ∧ x.1 < n + l.length
  | [], n => by simp
  | a :: as, n => by
    intro x hx
    rw [List.enumFrom_cons] at hx
    rcases List.mem_cons.mp hx with rfl | hx'
    · simp
    · have := enumFrom_fst_lt as (n + 1) x hx'
      constructor <;> [omega; (simp only [List.length_cons]; omega)]

theorem enumFrom_pairwise_fst {α : Type} :
    ∀ (l : List α) (n : Nat), (List.enumFrom n l).Pairwise fun a b => a.1 < b.1
  | [], n => by simp
  | a :: as, n => by
    rw [List.enumFrom_cons]
    refine List.Pairwise.cons ?_ (enumFrom_pairwise_fst as (n + 1))
    intro x hx
    have := (enumFrom_fst_lt as (n + 1) x hx).1
    simpa using lt_of_lt_of_le (Nat.lt_succ_self n) this

theorem getD_of_mem_enumFrom {α : Type} (d : α) :
    ∀ (l : List α) (n : Nat), ∀ x ∈ List.enumFrom n l, l.getD (x.1 - n) d = x.2
  | [], n => by simp
  | a :: as, n => by
    intro x hx
    rw [List.enumFrom_cons] at hx
    rcases List.mem_cons.mp hx with rfl | hx'
    · simp
    · have h1 := (enumFrom_fst_lt as (n + 1) x hx').1
      have h2 := getD_of_mem_enumFrom d as (n + 1) x hx'
      have hidx : x.1 - n = (x.1 - (n + 1)) + 1 := by omega
      rw [hidx, List.getD_cons_succ]
      exact h2

theorem getD_mem_enumFrom {α : Type} (d : α) :
    ∀ (l : List α) (n i : Nat), i < l.length → (n + i, l.getD i d) ∈ List.enumFrom n l
  | [], n, i => by simp
  | a :: as, n, 0 => by
    intro _
    rw [List.enumFrom_cons]
    simp
  | a :: as, n, (i + 1) => by
    intro hi
    rw [List.enumFrom_cons]
    refine List.mem_cons_of_mem _ ?_
    have := getD_mem_enumFrom d as (n + 1) i (by simpa using hi)
    simpa [Nat.add_assoc, Nat.add_comm 1 i] using this

end Splendor

namespace Splendor

/-! ## Helper lemmas about satSub, pickGo and purchaseGo -/

theorem satSub_nonneg (a b : Int) : 0 ≤ satSub a b := by
  unfold satSub
  split <;> omega

theorem get_set (m : ResourceMap) (r r' : ResourceKind) (v : Int) :
    (m.set r v).get r' = if r = r' then v else m.get r' := by
  by_cases h : r = r'
  · subst h
    rw [if_pos rfl]
    exact get_set_same m r v
  · rw [if_neg h]
    exact get_set_ne m r r' v h

theorem getD_eq_of_some {α : Type} (l : List α) (i : Nat) (d y : α)
    (h : l[i]? = some y) : l.getD i d = y := by
  rw [List.getD_eq_getElem?_getD, h]
  rfl

theorem mem_of_some {α : Type} {l : List α} {i : Nat} {y : α}
    (h : l[i]? = some y) : y ∈ l := by
  obtain ⟨hlt, hy⟩ := List.getElem?_eq_some_iff.mp h
  exact hy ▸ List.getElem_mem hlt

theorem change_player_fields (s : State) :
    (s.change_player).coins = s.coins ∧ (s.change_player).wilds = s.wilds ∧
      (s.change_player).decks = s.decks ∧ (s.change_player).nobels = s.nobels := by
  unfold State.change_player
  split <;> exact ⟨rfl, rfl, rfl, rfl⟩

theorem pickGo_conserve :
    ∀ (L : List ResourceKind) (coins : ResourceMap) (p : Player),
      (pickGo L coins p).1.1.sum + (pickGo L coins p).1.2.mortal.sum =
          coins.sum + p.mortal.sum ∧
        (pickGo L coins p).1.2.immortal = p.immortal ∧
        (pickGo L coins p).1.2.score = p.score ∧
        (pickGo L coins p).1.2.reserved = p.reserved ∧
        (pickGo L coins p).1.2.wilds = p.wilds ∧
        (pickGo L coins p).1.2.display_name = p.display_name := by
  intro L
  induction L with
  | nil =>
    intro coins p
    simp [pickGo]
  | cons item rest ih =>
    intro coins p
    unfold pickGo
    split
    · simp
    · obtain ⟨h1, h2, h3, h4, h5, h6⟩ := ih (coins.set item (coins.get item - 1))
        { p with mortal := p.mortal.set item (p.mortal.get item + 1) }
      refine ⟨?_, h2, h3, h4, h5, h6⟩
      rw [h1]
      show (coins.set item (coins.get item - 1)).sum +
        (p.mortal.set item (p.mortal.get item + 1)).sum = coins.sum + p.mortal.sum
      rw [sum_set, sum_set]
      ring

theorem pickGo_nonneg :
    ∀ (L : List ResourceKind) (coins : ResourceMap) (p : Player),
      (∀ r, 0 ≤ coins.get r) → (∀ r, 0 ≤ p.mortal.get r) →
      (∀ r, 0 ≤ (pickGo L coins p).1.1.get r) ∧
        (∀ r, 0 ≤ (pickGo L coins p).1.2.mortal.get r) := by
  intro L
  induction L with
  | nil =>
    intro coins p hc hm
    exact ⟨hc, hm⟩
  | cons item rest ih =>
    intro coins p hc hm
    unfold pickGo
    split
    · exact ⟨hc, hm⟩
    · next h0 =>
      apply ih
      · intro r
        rw [get_set]
        split
        · have := hc item
          omega
        · exact hc r
      · intro r
        show 0 ≤ (p.mortal.set item (p.mortal.get item + 1)).get r
        rw [get_set]
        split
        · have := hm item
          omega
        · exact hm r

theorem purchaseGo_frame :
    ∀ (L : List ResourceKind) (cost : ResourceMap) (p : Player)
      (coins : ResourceMap) (wilds : Int),
      (purchaseGo L cost p coins wilds).1.2.1.sum +
            (purchaseGo L cost p coins wilds).1.1.mortal.sum =
          coins.sum + p.mortal.sum ∧
        (purchaseGo L cost p coins wilds).1.2.2 +
            (purchaseGo L cost p coins wilds).1.1.wilds = wilds + p.wilds ∧
        (purchaseGo L cost p coins wilds).1.1.immortal = p.immortal ∧
        (purchaseGo L cost p coins wilds).1.1.score = p.score ∧
        (purchaseGo L cost p coins wilds).1.1.reserved = p.reserved ∧
        (purchaseGo L cost p coins wilds).1.1.display_name = p.display_name := by
  intro L
  induction L with
  | nil =>
    intro cost p coins wilds
    simp [purchaseGo]
  | cons r rest ih =>
    intro cost p coins wilds
    unfold purchaseGo
    dsimp only
    split
    · split
      · simp
      · obtain ⟨h1, h2, h3, h4, h5, h6⟩ := ih cost
          { p with wilds := p.wilds - (satSub (cost.get r) (p.immortal.get r) - p.mortal.get r),
                   mortal := p.mortal.set r 0 }
          (coins.set r (coins.get r + p.mortal.get r))
          (wilds + (satSub (cost.get r) (p.immortal.get r) - p.mortal.get r))
        refine ⟨?_, ?_, h3, h4, h5, h6⟩
        · rw [h1]
          show (coins.set r (coins.get r + p.mortal.get r)).sum +
            (p.mortal.set r 0).sum = coins.sum + p.mortal.sum
          rw [sum_set, sum_set]
          ring
        · rw [h2]
          show wilds + (satSub (cost.get r) (p.immortal.get r) - p.mortal.get r) +
            (p.wilds - (satSub (cost.get r) (p.immortal.get r) - p.mortal.get r)) =
            wilds + p.wilds
          ring
    · obtain ⟨h1, h2, h3, h4, h5, h6⟩ := ih cost
        { p with mortal := (p.mortal.set r (p.mortal.get r - satSub (cost.get r) (p.immortal.get r))) }
        (coins.set r (coins.get r + satSub (cost.get r) (p.immortal.get r)))
        wilds
      refine ⟨?_, ?_, h3, h4, h5, h6⟩
      · rw [h1]
        show (coins.set r (coins.get r + satSub (cost.get r) (p.immortal.get r))).sum +
          (p.mortal.set r (p.mortal.get r - satSub (cost.get r) (p.immortal.get r))).sum =
          coins.sum + p.mortal.sum
        rw [sum_set, sum_set]
        ring
      · exact h2

theorem purchaseGo_nonneg :
    ∀ (L : List ResourceKind) (cost : ResourceMap) (p : Player)
      (coins : ResourceMap) (wilds : Int),
      (∀ r, 0 ≤ p.mortal.get r) → 0 ≤ p.wilds →
      (∀ r, 0 ≤ coins.get r) → 0 ≤ wilds →
      (∀ r, 0 ≤ (purchaseGo L cost p coins wilds).1.1.mortal.get r) ∧
        0 ≤ (purchaseGo L cost p coins wilds).1.1.wilds ∧
        (∀ r, 0 ≤ (purchaseGo L cost p coins wilds).1.2.1.get r) ∧
        0 ≤ (purchaseGo L cost p coins wilds).1.2.2 := by
  intro L
  induction L with
  | nil =>
    intro cost p coins wilds hm hw hc hsw
    exact ⟨hm, hw, hc, hsw⟩
  | cons r rest ih =>
    intro cost p coins wilds hm hw hc hsw
    unfold purchaseGo
    dsimp only
    split
    · split
      · exact ⟨hm, hw, hc, hsw⟩
      · next hlt hwok =>
        apply ih
        · intro r'
          show 0 ≤ (p.mortal.set r 0).get r'
          rw [get_set]
          split
          · omega
          · exact hm r'
        · show 0 ≤ p.wilds - (satSub (cost.get r) (p.immortal.get r) - p.mortal.get r)
          omega
        · intro r'
          rw [get_set]
          split
          · have := hc r
            have := hm r
            omega
          · exact hc r'
        · have h0 := satSub_nonneg (cost.get r) (p.immortal.get r)
          have := hm r
          omega
    · next hge =>
      apply ih
      · intro r'
        show 0 ≤ (p.mortal.set r (p.mortal.get r - satSub (cost.get r) (p.immortal.get r))).get r'
        rw [get_set]
        split
        · omega
        · exact hm r'
      · exact hw
      · intro r'
        rw [get_set]
        split
        · have := hc r
          have := satSub_nonneg (cost.get r) (p.immortal.get r)
          omega
        · exact hc r'
      · exact hsw

theorem satSub_pos_eq (a b : Int) (h : 0 < satSub a b) : satSub a b = a - b := by
  unfold satSub at h ⊢
  split at h
  · omega
  · rw [if_neg (by omega)]

theorem purchaseGo_ok_iff :
    ∀ (L : List ResourceKind) (cost : ResourceMap) (p : Player)
      (coins : ResourceMap) (wilds : Int),
      L.Nodup → (∀ r ∈ L, 0 ≤ p.mortal.get r) → 0 ≤ p.wilds →
      ((purchaseGo L cost p coins wilds).2 = true ↔
        (L.map fun r =>
          satSub (cost.get r) (p.immortal.get r + p.mortal.get r)).sum ≤ p.wilds) := by
  intro L
  induction L with
  | nil =>
    intro cost p coins wilds _ _ hw
    simpa [purchaseGo] using hw
  | cons r rest ih =>
    intro cost p coins wilds hnd hm hw
    have hrni : r ∉ rest := (List.nodup_cons.mp hnd).1
    have hndr : rest.Nodup := (List.nodup_cons.mp hnd).2
    have hner : ∀ r2 ∈ rest, r ≠ r2 := fun r2 h2 he => hrni (by rw [he]; exact h2)
    have hm0 : 0 ≤ p.mortal.get r := hm r (List.mem_cons_self r rest)
    have hrest0 : 0 ≤ (rest.map fun r2 =>
        satSub (cost.get r2) (p.immortal.get r2 + p.mortal.get r2)).sum := by
      apply List.sum_nonneg
      intro x hx
      obtain ⟨r2, -, rfl⟩ := List.mem_map.mp hx
      exact satSub_nonneg _ _
    unfold purchaseGo
    dsimp only
    by_cases hlt : p.mortal.get r < satSub (cost.get r) (p.immortal.get r)
    · rw [if_pos hlt]
      have ht : satSub (cost.get r) (p.immortal.get r) =
          cost.get r - p.immortal.get r := satSub_pos_eq _ _ (by omega)
      have hsh : satSub (cost.get r) (p.immortal.get r + p.mortal.get r) =
          satSub (cost.get r) (p.immortal.get r) - p.mortal.get r := by
        rw [ht] at hlt ⊢
        unfold satSub
        rw [if_neg (by omega)]
        ring
      by_cases hwlt : p.wilds < satSub (cost.get r) (p.immortal.get r) - p.mortal.get r
      · rw [if_pos hwlt]
        simp only [List.map_cons, List.sum_cons]
        constructor
        · intro h
          exact Bool.noConfusion h
        · intro h
          exfalso
          rw [hsh] at h
          omega
      · rw [if_neg hwlt]
        have hmq : ∀ r2 ∈ rest,
            0 ≤ ({ p with wilds := p.wilds - (satSub (cost.get r) (p.immortal.get r) - p.mortal.get r), mortal := p.mortal.set r 0 } : Player).mortal.get r2 := by
          intro r2 h2
          show 0 ≤ (p.mortal.set r 0).get r2
          rw [get_set_ne _ _ _ _ (hner r2 h2)]
          exact hm r2 (List.mem_cons_of_mem r h2)
        have hwq : (0 : Int) ≤ p.wilds - (satSub (cost.get r) (p.immortal.get r) - p.mortal.get r) := by
          omega
        rw [ih cost _ _ _ hndr hmq hwq]
        have hmap : (rest.map fun r2 =>
            satSub (cost.get r2)
              (({ p with wilds := p.wilds - (satSub (cost.get r) (p.immortal.get r) - p.mortal.get r), mortal := p.mortal.set r 0 } : Player).immortal.get r2 +
               ({ p with wilds := p.wilds - (satSub (cost.get r) (p.immortal.get r) - p.mortal.get r), mortal := p.mortal.set r 0 } : Player).mortal.get r2)) =
            rest.map fun r2 =>
              satSub (cost.get r2) (p.immortal.get r2 + p.mortal.get r2) := by
          apply List.map_congr_left
          intro r2 h2
          show satSub (cost.get r2) (p.immortal.get r2 + (p.mortal.set r 0).get r2) = _
          rw [get_set_ne _ _ _ _ (hner r2 h2)]
        rw [hmap]
        simp only [List.map_cons, List.sum_cons]
        rw [hsh]
        show _ ≤ p.wilds - _ ↔ _
        omega
    · rw [if_neg hlt]
      have hsh0 : satSub (cost.get r) (p.immortal.get r + p.mortal.get r) = 0 := by
        unfold satSub at hlt ⊢
        split at hlt
        · rw [if_pos (by omega)]
        · rw [if_pos (by omega)]
      have hmq : ∀ r2 ∈ rest,
          0 ≤ ({ p with mortal := (p.mortal.set r (p.mortal.get r - satSub (cost.get r) (p.immortal.get r))) } : Player).mortal.get r2 := by
        intro r2 h2
        show 0 ≤ (p.mortal.set r (p.mortal.get r - satSub (cost.get r) (p.immortal.get r))).get r2
        rw [get_set_ne _ _ _ _ (hner r2 h2)]
        exact hm r2 (List.mem_cons_of_mem r h2)
      rw [ih cost _ _ _ hndr hmq hw]
      have hmap : (rest.map fun r2 =>
          satSub (cost.get r2)
            (({ p with mortal := (p.mortal.set r (p.mortal.get r - satSub (cost.get r) (p.immortal.get r))) } : Player).immortal.get r2 +
             ({ p with mortal := (p.mortal.set r (p.mortal.get r - satSub (cost.get r) (p.immortal.get r))) } : Player).mortal.get r2)) =
          rest.map fun r2 =>
            satSub (cost.get r2) (p.immortal.get r2 + p.mortal.get r2) := by
        apply List.map_congr_left
        intro r2 h2
        show satSub (cost.get r2)
          (p.immortal.get r2 + (p.mortal.set r (p.mortal.get r - satSub (cost.get r) (p.immortal.get r))).get r2) = _
        rw [get_set_ne _ _ _ _ (hner r2 h2)]
      rw [hmap]
      simp only [List.map_cons, List.sum_cons]
      rw [hsh0]
      show _ ≤ p.wilds ↔ _
      omega

/-- Affordability decides settlement: with the source's unsigned-value
invariants, `Player::purchase` succeeds exactly when `can_purchase` holds. -/
theorem purchase_ok_iff_can (p : Player) (cost coinsB : ResourceMap) (wildsB : Int)
    (hm : ∀ r, 0 ≤ p.mortal.get r) (hw : 0 ≤ p.wilds) :
    ((p.purchase cost coinsB wildsB).2 = true ↔ p.can_purchase cost = true) := by
  unfold Player.purchase Player.can_purchase
  rw [purchaseGo_ok_iff kindList cost p coinsB wildsB (by decide) (fun r _ => hm r) hw]
  simp

theorem getElem?_eq_some_getD {α : Type} (l : List α) (i : Nat) (d : α)
    (h : i < l.length) : l[i]? = some (l.getD i d) := by
  rw [List.getElem?_eq_getElem h, List.getD_eq_getElem?_getD, List.getElem?_eq_getElem h]
  rfl

/-- A default card for `getD`-style indexing in theorem statements. -/
def cDefault : Card := { cost := ResourceMap.new, score := 0, adds := ResourceMap.new }

/-- The total number of coin-units outside the wild pool: bank plus every
player's spendable holdings. -/
def coinTotal (s : State) : Int :=
  s.coins.sum + (s.players.map fun p => p.mortal.sum).sum

/-- The total number of wild coins: shared bank plus every player's wilds. -/
def wildTotal (s : State) : Int :=
  s.wilds + (s.players.map fun p => p.wilds).sum

theorem totals_change_player (s : State) :
    coinTotal s.change_player = coinTotal s ∧ wildTotal s.change_player = wildTotal s := by
  unfold coinTotal wildTotal State.change_player
  split <;> exact ⟨rfl, rfl⟩

theorem map_sum_set_at (f : Player → Int) (l : List Player) (i : Nat) (y x : Player)
    (h : l[i]? = some y) :
    ((l.set i x).map f).sum = (l.map f).sum - f y + f x := by
  have hi : i < l.length := (List.getElem?_eq_some_iff.mp h).1
  rw [map_sum_set f l i x hi, getD_eq_of_some l i x y h]

/-! ## Claim theorems: winner, turn rotation, termination predicate -/

/-- Claim C6: `State::is_finished` returns true exactly when the turn index
is 0 and some player's score exceeds 14. -/
theorem is_finished_characterization (s : State) :
    s.is_finished = true ↔ s.turn = 0 ∧ ∃ p ∈ s.players, 14 < p.score := by
  unfold State.is_finished
  simp [List.any_eq_true]

/-- Claim C5: every action that `State::run` applies successfully advances
the turn index to `(turn + 1) % player_count`. -/
theorem run_advances_turn (s : State) (a : Action)
    (h0 : s.turn < s.players.length) (h : (s.run a).2 = true) :
    (s.run a).1.turn = (s.turn + 1) % s.players.length := by
  have hx : s.run a = ((s.run a).1, true) := by rw [← h]
  exact (run_ok_shape s a (s.run a).1 hx).2.2

theorem run_advances_turn_witness :
    sPick.turn < sPick.players.length ∧ (sPick.run Action.Skip).2 = true ∧
      (sPick.run Action.Skip).1.turn = (sPick.turn + 1) % sPick.players.length :=
  ⟨by decide, by decide, run_advances_turn sPick Action.Skip (by decide) (by decide)⟩

/-- Claim C3 fails as stated: with both players at score 15 the source's
`max_by_key` keeps the last maximal player, so `winner` is 1, not 0. -/
theorem winner_tie_cex :
    0 < sTie.players.length ∧ sTie.is_finished = true ∧
      (sTie.players.getD 0 pBase).score = 15 ∧ (sTie.players.getD 1 pBase).score = 15 ∧
      sTie.winner ≠ 0 := by
  refine ⟨by decide, by decide, by decide, by decide, by decide⟩

/-- Claim C3 (amended): `winner` returns the index of the player with the
highest score; when several players tie for the highest score it returns the
last such index in player-list order (so scores `[15, 15]` give winner 1). -/
theorem winner_is_last_argmax (s : State) (h : 0 < s.players.length) :
    s.winner < s.players.length ∧
      (∀ i, i < s.players.length →
        (s.players.getD i pBase).score ≤ (s.players.getD s.winner pBase).score) ∧
      (∀ j, s.winner < j → j < s.players.length →
        (s.players.getD j pBase).score < (s.players.getD s.winner pBase).score) := by
  rcases hpl : s.players with _ | ⟨p, rest⟩
  · rw [hpl] at h; simp at h
  · have hwin : s.winner = (winnerAux (0, p) (List.enumFrom 1 rest)).1 := by
      unfold State.winner
      rw [hpl, List.enum_cons]
    have hmem := winnerAux_mem (0, p) (List.enumFrom 1 rest)
    have hW : (p :: rest).getD (winnerAux (0, p) (List.enumFrom 1 rest)).1 pBase =
        (winnerAux (0, p) (List.enumFrom 1 rest)).2 := by
      rcases hmem with hm | hm
      · rw [hm]
        rfl
      · have h1 := (enumFrom_fst_lt rest 1 _ hm).1
        have h2 := getD_of_mem_enumFrom pBase rest 1 _ hm
        have hidx : (winnerAux (0, p) (List.enumFrom 1 rest)).1 =
            ((winnerAux (0, p) (List.enumFrom 1 rest)).1 - 1) + 1 := by omega
        rw [hidx, List.getD_cons_succ]
        exact h2
    have hlen : (winnerAux (0, p) (List.enumFrom 1 rest)).1 < (p :: rest).length := by
      rcases hmem with hm | hm
      · rw [hm]; simp
      · have := (enumFrom_fst_lt rest 1 _ hm).2
        simp only [List.length_cons]
        omega
    refine ⟨by rw [hwin]; exact hlen, ?_, ?_⟩
    · intro i hi
      rw [hwin, hW]
      rcases i with _ | j
      · exact (winnerAux_score_le (0, p) (List.enumFrom 1 rest)).1
      · have hj : j < rest.length := by simpa using hi
        have hm := getD_mem_enumFrom pBase rest 1 j hj
        have := (winnerAux_score_le (0, p) (List.enumFrom 1 rest)).2 _ hm
        simpa [Nat.add_comm 1 j] using this
    · intro j hj hjlen
      rw [hwin, hW]
      rw [hwin] at hj
      have hlast := winnerAux_last (0, p) (List.enumFrom 1 rest)
        (fun x hx => by simpa using (enumFrom_fst_lt rest 1 x hx).1)
        (enumFrom_pairwise_fst rest 1)
      rcases j with _ | j'
      · exact absurd hj (Nat.not_lt_zero _)
      · have hj' : j' < rest.length := by simpa using hjlen
        have hm := getD_mem_enumFrom pBase rest 1 j' hj'
        have := hlast _ (.inr hm) (by simpa [Nat.add_comm 1 j'] using hj)
        simpa [Nat.add_comm 1 j'] using this

theorem winner_is_last_argmax_witness :
    0 < sTie.players.length ∧ sTie.winner < sTie.players.length ∧
      (∀ i, i < sTie.players.length →
        (sTie.players.getD i pBase).score ≤ (sTie.players.getD sTie.winner pBase).score) ∧
      (∀ j, sTie.winner < j → j < sTie.players.length →
        (sTie.players.getD j pBase).score < (sTie.players.getD sTie.winner pBase).score) :=
  ⟨by decide, winner_is_last_argmax sTie (by decide)⟩

/-- Claim C2: every successful transition conserves the total coin count
(bank plus all players' spendable holdings) plus the total wild count
(shared wild bank plus all players' wilds). -/
theorem run_conserves_total (s st : State) (a : Action) (h : s.run a = (st, true)) :
    coinTotal st + wildTotal st = coinTotal s + wildTotal s := by
  unfold State.run Player.purchase at h
  rcases hp : s.players[s.turn]? with _ | player
  · rw [hp] at h; simp at h
  · rw [hp] at h
    cases a with
    | PickThree one two three =>
      dsimp only at h
      split at h
      · exact absurd h (by simp)
      · split at h
        · injection h with h1 h2
          subst h1
          rw [(totals_change_player _).1, (totals_change_player _).2]
          unfold coinTotal wildTotal
          dsimp only
          rw [map_sum_set_at (fun p => p.mortal.sum) s.players s.turn player _ hp,
            map_sum_set_at (fun p => p.wilds) s.players s.turn player _ hp]
          obtain ⟨hc1, -, -, -, hc5, -⟩ := pickGo_conserve [one, two, three] s.coins player
          rw [hc5]
          omega
        · exact absurd h (by simp)
    | PickTwo color =>
      dsimp only at h
      split at h
      · exact absurd h (by simp)
      · injection h with h1 h2
        subst h1
        rw [(totals_change_player _).1, (totals_change_player _).2]
        unfold coinTotal wildTotal
        dsimp only
        rw [map_sum_set_at (fun p => p.mortal.sum) s.players s.turn player _ hp,
          map_sum_set_at (fun p => p.wilds) s.players s.turn player _ hp]
        dsimp only
        rw [sum_set, sum_set]
        omega
    | Purchase deck card =>
      dsimp only at h
      rcases hdm : s.decks[deck]? with _ | d
      · rw [hdm] at h; exact absurd h (by simp)
      · rw [hdm] at h
        dsimp only at h
        split at h
        · exact absurd h (by simp)
        · rcases hcm : d[card]? with _ | c
          · rw [hcm] at h; exact absurd h (by simp)
          · rw [hcm] at h
            dsimp only at h
            split at h
            · split at h
              · injection h with h1 h2
                subst h1
                rw [(totals_change_player _).1, (totals_change_player _).2]
                unfold coinTotal wildTotal
                dsimp only
                rw [map_sum_set_at (fun p => p.mortal.sum) s.players s.turn player _ hp,
                  map_sum_set_at (fun p => p.wilds) s.players s.turn player _ hp]
                obtain ⟨hc1, hc2, -, -, -, -⟩ :=
                  purchaseGo_frame kindList c.cost player s.coins s.wilds
                dsimp only
                omega
              · exact absurd h (by simp)
            · exact absurd h (by simp)
    | PurchaseReserved index =>
      dsimp only at h
      rcases hcm : player.reserved[index]? with _ | c
      · rw [hcm] at h; exact absurd h (by simp)
      · rw [hcm] at h
        dsimp only at h
        split at h
        · split at h
          · injection h with h1 h2
            subst h1
            rw [(totals_change_player _).1, (totals_change_player _).2]
            unfold coinTotal wildTotal
            dsimp only
            rw [map_sum_set_at (fun p => p.mortal.sum) s.players s.turn player _ hp,
              map_sum_set_at (fun p => p.wilds) s.players s.turn player _ hp]
            obtain ⟨hc1, hc2, -, -, -, -⟩ :=
              purchaseGo_frame kindList c.cost
                { player with reserved := player.reserved.eraseIdx index } s.coins s.wilds
            dsimp only at hc1 hc2 ⊢
            omega
          · exact absurd h (by simp)
        · exact absurd h (by simp)
    | Reserve deck card =>
      dsimp only at h
      rcases hdm : s.decks[deck]? with _ | d
      · rw [hdm] at h; exact absurd h (by simp)
      · rw [hdm] at h
        dsimp only at h
        split at h
        · exact absurd h (by simp)
        · rcases hcm : d[card]? with _ | c
          · rw [hcm] at h; exact absurd h (by simp)
          · rw [hcm] at h
            injection h with h1 h2
            subst h1
            rw [(totals_change_player _).1, (totals_change_player _).2]
            unfold coinTotal wildTotal
            dsimp only
            rw [map_sum_set_at (fun p => p.mortal.sum) s.players s.turn player _ hp,
              map_sum_set_at (fun p => p.wilds) s.players s.turn player _ hp]
            dsimp only
            omega
    | Skip =>
      injection h with h1 h2
      subst h1
      rw [(totals_change_player _).1, (totals_change_player _).2]

theorem run_conserves_total_witness :
    sPick.run (Action.PickTwo ResourceKind.Red) =
        ((sPick.run (Action.PickTwo ResourceKind.Red)).1, true) ∧
      coinTotal (sPick.run (Action.PickTwo ResourceKind.Red)).1 +
          wildTotal (sPick.run (Action.PickTwo ResourceKind.Red)).1 =
        coinTotal sPick + wildTotal sPick :=
  ⟨by decide,
   run_conserves_total sPick (sPick.run (Action.PickTwo ResourceKind.Red)).1
     (Action.PickTwo ResourceKind.Red) (by decide)⟩

/-- Claim C4: with valid deck and visible-slot indices, applying `Purchase`
succeeds exactly when `can_purchase` holds for the visible card's cost; and
`Player::purchase` errors exactly when `can_purchase` is false for the same
cost and player. -/
theorem can_purchase_iff_success (s : State) (deck card : Nat) (p : Player)
    (cost coinsB : ResourceMap) (wildsB : Int)
    (h0 : s.turn < s.players.length) (hd : deck < s.decks.length)
    (hc4 : card < MAX_DECK_SHOW) (hcl : card < (s.decks.getD deck []).length)
    (hms : ∀ r, 0 ≤ (s.players.getD s.turn pBase).mortal.get r)
    (hws : 0 ≤ (s.players.getD s.turn pBase).wilds)
    (hmp : ∀ r, 0 ≤ p.mortal.get r) (hwp : 0 ≤ p.wilds) :
    ((s.run (Action.Purchase deck card)).2 = true ↔
        (s.players.getD s.turn pBase).can_purchase
          ((s.decks.getD deck []).getD card cDefault).cost = true) ∧
      ((p.purchase cost coinsB wildsB).2 = false ↔ p.can_purchase cost = false) := by
  constructor
  · have hP : s.players[s.turn]? = some (s.players.getD s.turn pBase) :=
      getElem?_eq_some_getD s.players s.turn pBase h0
    have hD : s.decks[deck]? = some (s.decks.getD deck []) :=
      getElem?_eq_some_getD s.decks deck [] hd
    have hC : (s.decks.getD deck [])[card]? =
        some ((s.decks.getD deck []).getD card cDefault) :=
      getElem?_eq_some_getD (s.decks.getD deck []) card cDefault hcl
    unfold State.run
    rw [hP]
    dsimp only
    rw [hD]
    dsimp only
    rw [if_neg (not_le.mpr hc4), hC]
    dsimp only
    by_cases hcan : (s.players.getD s.turn pBase).can_purchase
        ((s.decks.getD deck []).getD card cDefault).cost = true
    · rw [if_pos hcan]
      have hok := (purchase_ok_iff_can (s.players.getD s.turn pBase)
        ((s.decks.getD deck []).getD card cDefault).cost s.coins s.wilds hms hws).mpr hcan
      rw [if_pos hok]
      exact ⟨fun _ => hcan, fun _ => rfl⟩
    · rw [if_neg hcan]
      exact ⟨fun hh => Bool.noConfusion hh, fun hh => absurd hh hcan⟩
  · have := purchase_ok_iff_can p cost coinsB wildsB hmp hwp
    rcases hx : (p.purchase cost coinsB wildsB).2 <;> rcases hy : p.can_purchase cost <;>
      simp_all

theorem can_purchase_iff_success_witness :
    (sCard.run (Action.Purchase 0 0)).2 = true ∧
      (sCard.players.getD sCard.turn pBase).can_purchase
        ((sCard.decks.getD 0 []).getD 0 cDefault).cost = true ∧
      (pBase.purchase (rmOf 0 0 0 0 0) (rmOf 0 0 0 0 0) 0).2 ≠ false := by
  have h := can_purchase_iff_success sCard 0 0 pBase (rmOf 0 0 0 0 0) (rmOf 0 0 0 0 0) 0
    (by decide) (by decide) (by decide) (by decide) (by decide) (by decide)
    (by decide) (by decide)
  refine ⟨h.1.mpr (by decide), by decide, ?_⟩
  intro hbad
  exact absurd (h.2.mp hbad) (by decide)

/-- Claim C1 fails as stated: a `PickThree` whose later-picked kind is
exhausted bails after already moving the earlier coins, so the failed call
leaves the state changed. -/
theorem run_partial_mutation_cex :
    sPartial.turn < sPartial.players.length ∧
      (sPartial.run (Action.PickThree ResourceKind.Red ResourceKind.Blue
        ResourceKind.Green)).2 = false ∧
      (sPartial.run (Action.PickThree ResourceKind.Red ResourceKind.Blue
        ResourceKind.Green)).1 ≠ sPartial :=
  ⟨by decide, by decide, by decide⟩

/-- Claim C1 (amended): a failed `State::run` leaves the state exactly as it
was for every action except a `PickThree` that fails after its first
transfer; a failing `PickThree` leaves the state unchanged when it fails
before moving any coin (duplicate kinds, or the first-picked kind already
exhausted).  The non-negativity hypothesis reflects the source's unsigned
counters. -/
theorem run_fail_frame (s : State) (a : Action)
    (hnn : ∀ p ∈ s.players, (∀ r, 0 ≤ p.mortal.get r) ∧ 0 ≤ p.wilds)
    (hf : (s.run a).2 = false)
    (hpt : ∀ one two three, a = Action.PickThree one two three →
      one = two ∨ one = three ∨ two = three ∨ s.coins.get one = 0) :
    (s.run a).1 = s := by
  unfold State.run Player.purchase at hf ⊢
  rcases hp : s.players[s.turn]? with _ | player
  · rfl
  · rw [hp] at hf
    obtain ⟨hm, hw⟩ := hnn player (mem_of_some hp)
    cases a with
    | PickThree one two three =>
      dsimp only at hf ⊢
      by_cases hdup : one = two ∨ one = three ∨ two = three
      · rw [if_pos hdup]
      · rw [if_neg hdup] at hf ⊢
        have hc0 : s.coins.get one = 0 := by
          rcases hpt one two three rfl with hq | hq | hq | hq
          · exact absurd (Or.inl hq) hdup
          · exact absurd (Or.inr (Or.inl hq)) hdup
          · exact absurd (Or.inr (Or.inr hq)) hdup
          · exact hq
        have hpg : pickGo [one, two, three] s.coins player = ((s.coins, player), false) := by
          unfold pickGo
          rw [if_pos hc0]
        rw [hpg]
        rw [if_neg (show ¬(((s.coins, player), false).2 = true) from Bool.false_ne_true)]
        dsimp only
        rw [set_getElem_self s.players s.turn player hp]
    | PickTwo color =>
      dsimp only at hf ⊢
      by_cases hcond : s.coins.get color < 4
      · rw [if_pos hcond]
      · rw [if_neg hcond] at hf
        exact absurd hf (by simp)
    | Purchase deck card =>
      dsimp only at hf ⊢
      rcases hdm : s.decks[deck]? with _ | d
      · rfl
      · rw [hdm] at hf
        dsimp only at hf ⊢
        by_cases h4 : MAX_DECK_SHOW ≤ card
        · rw [if_pos h4]
        · rw [if_neg h4] at hf ⊢
          rcases hcm : d[card]? with _ | c
          · rfl
          · rw [hcm] at hf
            dsimp only at hf ⊢
            by_cases hcan : player.can_purchase c.cost = true
            · have hok : (purchaseGo kindList c.cost player s.coins s.wilds).2 = true :=
                (purchase_ok_iff_can player c.cost s.coins s.wilds hm hw).mpr hcan
              rw [if_pos hcan, if_pos hok] at hf
              exact absurd hf (by simp)
            · rw [if_neg hcan]
    | PurchaseReserved index =>
      dsimp only at hf ⊢
      rcases hcm : player.reserved[index]? with _ | c
      · rfl
      · rw [hcm] at hf
        dsimp only at hf ⊢
        by_cases hcan : player.can_purchase c.cost = true
        · have hok : (purchaseGo kindList c.cost
              { player with reserved := player.reserved.eraseIdx index }
              s.coins s.wilds).2 = true :=
            (purchase_ok_iff_can
              { player with reserved := player.reserved.eraseIdx index }
              c.cost s.coins s.wilds hm hw).mpr hcan
          rw [if_pos hcan, if_pos hok] at hf
          exact absurd hf (by simp)
        · rw [if_neg hcan]
    | Reserve deck card =>
      dsimp only at hf ⊢
      rcases hdm : s.decks[deck]? with _ | d
      · rfl
      · rw [hdm] at hf
        dsimp only at hf ⊢
        by_cases h4 : MAX_DECK_SHOW ≤ card
        · rw [if_pos h4]
        · rw [if_neg h4] at hf
          rcases hcm : d[card]? with _ | c
          · rw [if_neg h4]
          · rw [hcm] at hf
            dsimp only at hf
            exact absurd hf (by simp)
    | Skip =>
      dsimp only at hf
      exact absurd hf (by simp)

theorem run_fail_frame_witness :
    (sPick.run (Action.PickTwo ResourceKind.Green)).2 = false ∧
      (sPick.run (Action.PickTwo ResourceKind.Green)).1 = sPick :=
  ⟨by decide,
   run_fail_frame sPick (Action.PickTwo ResourceKind.Green) (by decide) (by decide)
     (fun one two three hh => Action.noConfusion hh)⟩

/-- Claim C7: a `Reserve` of a valid visible card succeeds, removes the card
from that deck, appends it to the acting player's reserved list with no
payment and no score change, advances the turn, and changes nothing else. -/
theorem run_reserve_frame (s : State) (deck card : Nat)
    (h0 : s.turn < s.players.length) (hd : deck < s.decks.length)
    (hc4 : card < MAX_DECK_SHOW) (hcl : card < (s.decks.getD deck []).length) :
    (s.run (Action.Reserve deck card)).2 = true ∧
      (s.run (Action.Reserve deck card)).1.decks =
        s.decks.set deck ((s.decks.getD deck []).eraseIdx card) ∧
      (s.run (Action.Reserve deck card)).1.coins = s.coins ∧
      (s.run (Action.Reserve deck card)).1.wilds = s.wilds ∧
      (s.run (Action.Reserve deck card)).1.nobels = s.nobels ∧
      (s.run (Action.Reserve deck card)).1.turn = (s.turn + 1) % s.players.length ∧
      (s.run (Action.Reserve deck card)).1.players.length = s.players.length ∧
      (∀ j, j < s.players.length → j ≠ s.turn →
        (s.run (Action.Reserve deck card)).1.players.getD j pBase =
          s.players.getD j pBase) ∧
      (s.run (Action.Reserve deck card)).1.players.getD s.turn pBase =
        { s.players.getD s.turn pBase with
            reserved := (s.players.getD s.turn pBase).reserved ++
              [(s.decks.getD deck []).getD card cDefault] } := by
  have hP : s.players[s.turn]? = some (s.players.getD s.turn pBase) :=
    getElem?_eq_some_getD s.players s.turn pBase h0
  have hD : s.decks[deck]? = some (s.decks.getD deck []) :=
    getElem?_eq_some_getD s.decks deck [] hd
  have hC : (s.decks.getD deck [])[card]? =
      some ((s.decks.getD deck []).getD card cDefault) :=
    getElem?_eq_some_getD (s.decks.getD deck []) card cDefault hcl
  unfold State.run
  rw [hP]
  dsimp only
  rw [hD]
  dsimp only
  rw [if_neg (not_le.mpr hc4), hC]
  dsimp only
  refine ⟨rfl, ?_, ?_, ?_, ?_, ?_, ?_, ?_, ?_⟩
  · exact (change_player_fields _).2.2.1
  · exact (change_player_fields _).1
  · exact (change_player_fields _).2.1
  · exact (change_player_fields _).2.2.2
  · rw [change_player_turn _ (by simpa using h0)]
    simp
  · rw [change_player_players]
    simp
  · intro j hj hne
    rw [change_player_players]
    simp only [List.getD_eq_getElem?_getD]
    rw [List.getElem?_set_ne (Ne.symm hne)]
  · rw [change_player_players, List.getD_eq_getElem?_getD,
      List.getElem?_set_self h0]
    rfl

theorem run_reserve_frame_witness :
    (sCard.run (Action.Reserve 0 0)).2 = true ∧
      (sCard.run (Action.Reserve 0 0)).1.decks =
        sCard.decks.set 0 ((sCard.decks.getD 0 []).eraseIdx 0) ∧
      (sCard.run (Action.Reserve 0 0)).1.coins = sCard.coins ∧
      (sCard.run (Action.Reserve 0 0)).1.players.getD sCard.turn pBase =
        { sCard.players.getD sCard.turn pBase with
            reserved := (sCard.players.getD sCard.turn pBase).reserved ++
              [(sCard.decks.getD 0 []).getD 0 cDefault] } := by
  have h := run_reserve_frame sCard 0 0 (by decide) (by decide) (by decide) (by decide)
  exact ⟨h.1, h.2.1, h.2.2.1, h.2.2.2.2.2.2.2.2⟩

end Splendor

namespace Splendor

/-! ## Non-negativity (claim C8) -/

/-- All five slots of a resource map are non-negative. -/
abbrev MapNonneg (m : ResourceMap) : Prop := ∀ r, 0 ≤ m.get r

/-- A card carries non-negative cost entries, score, and production. -/
abbrev CardOk (c : Card) : Prop := MapNonneg c.cost ∧ 0 ≤ c.score ∧ MapNonneg c.adds

/-- A player's counters are non-negative, and so are those of every card the
player has reserved. -/
abbrev PlayerOk (p : Player) : Prop :=
  MapNonneg p.mortal ∧ MapNonneg p.immortal ∧ 0 ≤ p.score ∧ 0 ≤ p.wilds ∧
    ∀ c ∈ p.reserved, CardOk c

/-- Every counter reachable from the state is non-negative: the bank, the
wild pool, every player, and every card in every deck. -/
abbrev StateOk (s : State) : Prop :=
  MapNonneg s.coins ∧ 0 ≤ s.wilds ∧ (∀ p ∈ s.players, PlayerOk p) ∧
    ∀ d ∈ s.decks, ∀ c ∈ d, CardOk c

theorem get_add (a b : ResourceMap) (r : ResourceKind) :
    (a.add b).get r = a.get r + b.get r := by
  cases r <;> rfl

theorem stateOk_change_player (s : State) (h : StateOk s) : StateOk s.change_player := by
  unfold State.change_player
  split <;> exact h

theorem playersOk_set (l : List Player) (i : Nat) (q : Player)
    (h : ∀ p ∈ l, PlayerOk p) (hq : PlayerOk q) : ∀ p ∈ l.set i q, PlayerOk p := by
  intro p hp
  rcases List.mem_or_eq_of_mem_set hp with hmm | rfl
  · exact h p hmm
  · exact hq

theorem decksOk_set (ds : List (List Card)) (i : Nat) (dq : List Card)
    (h : ∀ d ∈ ds, ∀ c ∈ d, CardOk c) (hdq : ∀ c ∈ dq, CardOk c) :
    ∀ d ∈ ds.set i dq, ∀ c ∈ d, CardOk c := by
  intro d hd
  rcases List.mem_or_eq_of_mem_set hd with hmm | rfl
  · exact h d hmm
  · exact hdq

/-- Claim C8: `State::run` never drives any counter negative — starting from
a state with non-negative counters, the state after any call (successful or
failed) still has non-negative bank entries, spendable entries, wild counts
and scores; every subtraction in the source is guarded by a preceding
check, which is what makes this preservation hold in the unbounded-integer
model. -/
theorem run_nonneg (s : State) (a : Action) (h0 : s.turn < s.players.length)
    (hok : StateOk s) : StateOk (s.run a).1 := by
  obtain ⟨hc, hw, hpl, hdk⟩ := hok
  unfold State.run Player.purchase
  rcases hp : s.players[s.turn]? with _ | player
  · exact ⟨hc, hw, hpl, hdk⟩
  · obtain ⟨hm, hi, hsc, hwp, hres⟩ := hpl player (mem_of_some hp)
    cases a with
    | PickThree one two three =>
      dsimp only
      split
      · exact ⟨hc, hw, hpl, hdk⟩
      · obtain ⟨hg1, hg2⟩ := pickGo_nonneg [one, two, three] s.coins player hc hm
        obtain ⟨-, hq2, hq3, hq4, hq5, -⟩ := pickGo_conserve [one, two, three] s.coins player
        have hpq : PlayerOk (pickGo [one, two, three] s.coins player).1.2 := by
          refine ⟨hg2, ?_, ?_, ?_, ?_⟩
          · rw [hq2]; exact hi
          · rw [hq3]; exact hsc
          · rw [hq5]; exact hwp
          · rw [hq4]; exact hres
        split
        · exact stateOk_change_player _ ⟨hg1, hw, playersOk_set _ _ _ hpl hpq, hdk⟩
        · exact ⟨hg1, hw, playersOk_set _ _ _ hpl hpq, hdk⟩
    | PickTwo color =>
      dsimp only
      split
      · exact ⟨hc, hw, hpl, hdk⟩
      · next hge =>
        apply stateOk_change_player
        refine ⟨?_, hw, ?_, hdk⟩
        · intro r
          rw [get_set]
          split
          · omega
          · exact hc r
        · apply playersOk_set _ _ _ hpl
          refine ⟨?_, hi, hsc, hwp, hres⟩
          intro r
          show 0 ≤ (player.mortal.set color (player.mortal.get color + 2)).get r
          rw [get_set]
          split
          · have := hm color
            omega
          · exact hm r
    | Purchase deck card =>
      dsimp only
      rcases hdm : s.decks[deck]? with _ | d
      · exact ⟨hc, hw, hpl, hdk⟩
      · dsimp only
        split
        · exact ⟨hc, hw, hpl, hdk⟩
        · rcases hcm : d[card]? with _ | c
          · exact ⟨hc, hw, hpl, hdk⟩
          · dsimp only
            have hcardok : CardOk c := hdk d (mem_of_some hdm) c (mem_of_some hcm)
            split
            · obtain ⟨hq1, hq2, hq3, hq4⟩ :=
                purchaseGo_nonneg kindList c.cost player s.coins s.wilds hm hwp hc hw
              obtain ⟨-, -, hf3, hf4, hf5, -⟩ :=
                purchaseGo_frame kindList c.cost player s.coins s.wilds
              split
              · apply stateOk_change_player
                refine ⟨hq3, hq4, ?_, ?_⟩
                · apply playersOk_set _ _ _ hpl
                  refine ⟨hq1, ?_, ?_, hq2, ?_⟩
                  · intro r
                    show 0 ≤ ((purchaseGo kindList c.cost player s.coins s.wilds).1.1.immortal.add c.adds).get r
                    rw [get_add, hf3]
                    have := hi r
                    have := hcardok.2.2 r
                    omega
                  · show 0 ≤ (purchaseGo kindList c.cost player s.coins s.wilds).1.1.score + c.score
                    rw [hf4]
                    have := hcardok.2.1
                    omega
                  · show ∀ c2 ∈ (purchaseGo kindList c.cost player s.coins s.wilds).1.1.reserved, CardOk c2
                    rw [hf5]
                    exact hres
                · apply decksOk_set _ _ _ hdk
                  intro c2 hc2
                  exact hdk d (mem_of_some hdm) c2 (List.mem_of_mem_eraseIdx hc2)
              · refine ⟨hq3, hq4, ?_, hdk⟩
                apply playersOk_set _ _ _ hpl
                refine ⟨hq1, ?_, ?_, hq2, ?_⟩
                · rw [hf3]; exact hi
                · rw [hf4]; exact hsc
                · rw [hf5]; exact hres
            · exact ⟨hc, hw, hpl, hdk⟩
    | PurchaseReserved index =>
      dsimp only
      rcases hcm : player.reserved[index]? with _ | c
      · exact ⟨hc, hw, hpl, hdk⟩
      · dsimp only
        have hcardok : CardOk c := hres c (mem_of_some hcm)
        split
        · obtain ⟨hq1, hq2, hq3, hq4⟩ :=
            purchaseGo_nonneg kindList c.cost
              { player with reserved := player.reserved.eraseIdx index }
              s.coins s.wilds hm hwp hc hw
          obtain ⟨-, -, hf3, hf4, hf5, -⟩ :=
            purchaseGo_frame kindList c.cost
              { player with reserved := player.reserved.eraseIdx index }
              s.coins s.wilds
          have hres2 : ∀ c2 ∈ player.reserved.eraseIdx index, CardOk c2 :=
            fun c2 hc2 => hres c2 (List.mem_of_mem_eraseIdx hc2)
          split
          · apply stateOk_change_player
            refine ⟨hq3, hq4, ?_, hdk⟩
            apply playersOk_set _ _ _ hpl
            refine ⟨hq1, ?_, ?_, hq2, ?_⟩
            · intro r
              rw [get_add, hf3]
              show 0 ≤ player.immortal.get r + c.adds.get r
              have := hi r
              have := hcardok.2.2 r
              omega
            · rw [hf4]
              have := hcardok.2.1
              show (0 : Int) ≤ player.score + c.score
              omega
            · rw [hf5]
              exact hres2
          · refine ⟨hq3, hq4, ?_, hdk⟩
            apply playersOk_set _ _ _ hpl
            refine ⟨hq1, ?_, ?_, hq2, ?_⟩
            · rw [hf3]; exact hi
            · rw [hf4]; exact hsc
            · rw [hf5]; exact hres2
        · exact ⟨hc, hw, hpl, hdk⟩
    | Reserve deck card =>
      dsimp only
      rcases hdm : s.decks[deck]? with _ | d
      · exact ⟨hc, hw, hpl, hdk⟩
      · dsimp only
        split
        · exact ⟨hc, hw, hpl, hdk⟩
        · rcases hcm : d[card]? with _ | c
          · exact ⟨hc, hw, hpl, hdk⟩
          · apply stateOk_change_player
            refine ⟨hc, hw, ?_, ?_⟩
            · apply playersOk_set _ _ _ hpl
              refine ⟨hm, hi, hsc, hwp, ?_⟩
              intro c2 hc2
              rcases List.mem_append.mp hc2 with hmm | hmm
              · exact hres c2 hmm
              · rw [List.mem_singleton.mp hmm]
                exact hdk d (mem_of_some hdm) c (mem_of_some hcm)
            · apply decksOk_set _ _ _ hdk
              intro c2 hc2
              exact hdk d (mem_of_some hdm) c2 (List.mem_of_mem_eraseIdx hc2)
    | Skip =>
      exact stateOk_change_player _ ⟨hc, hw, hpl, hdk⟩

theorem run_nonneg_witness :
    sCard.turn < sCard.players.length ∧ StateOk sCard ∧
      StateOk (sCard.run (Action.Purchase 0 0)).1 :=
  ⟨by decide, by decide, run_nonneg sCard (Action.Purchase 0 0) (by decide) (by decide)⟩

end Splendor


namespace Splendor

/-! ## Move generation (claim C9) -/

theorem mem_kindList (r : ResourceKind) : r ∈ kindList := by
  cases r <;> decide

theorem mem_card_iter (s : State) (deck card : Nat) :
    (deck, card) ∈ s.card_iter ↔
      deck < s.decks.length ∧ card < min MAX_DECK_SHOW (s.decks.getD deck []).length := by
  unfold State.card_iter
  simp only [List.mem_flatMap, List.mem_map, List.mem_range]
  constructor
  · rintro ⟨x, hx, y, hy, heq⟩
    injection heq with h1 h2
    subst h1
    subst h2
    exact ⟨hx, hy⟩
  · rintro ⟨h1, h2⟩
    exact ⟨deck, h1, card, h2, rfl⟩

theorem run_purchase_ok_shape (s : State) (deck card : Nat)
    (h : (s.run (Action.Purchase deck card)).2 = true) :
    deck < s.decks.length ∧ card < MAX_DECK_SHOW ∧
      card < (s.decks.getD deck []).length := by
  unfold State.run at h
  rcases hp : s.players[s.turn]? with _ | player
  · rw [hp] at h
    exact absurd h (by simp)
  · rw [hp] at h
    dsimp only at h
    rcases hdm : s.decks[deck]? with _ | d
    · rw [hdm] at h
      exact absurd h (by simp)
    · rw [hdm] at h
      dsimp only at h
      have hdl : deck < s.decks.length := (List.getElem?_eq_some_iff.mp hdm).1
      split at h
      · exact absurd h (by simp)
      · next h4 =>
        rcases hcm : d[card]? with _ | c
        · rw [hcm] at h
          exact absurd h (by simp)
        · have hcd : card < d.length := (List.getElem?_eq_some_iff.mp hcm).1
          have hdd : s.decks.getD deck [] = d := getD_eq_of_some s.decks deck [] d hdm
          refine ⟨hdl, by omega, ?_⟩
          rw [hdd]
          exact hcd

theorem run_reserve_ok_shape (s : State) (deck card : Nat)
    (h : (s.run (Action.Reserve deck card)).2 = true) :
    deck < s.decks.length ∧ card < MAX_DECK_SHOW ∧
      card < (s.decks.getD deck []).length := by
  unfold State.run at h
  rcases hp : s.players[s.turn]? with _ | player
  · rw [hp] at h
    exact absurd h (by simp)
  · rw [hp] at h
    dsimp only at h
    rcases hdm : s.decks[deck]? with _ | d
    · rw [hdm] at h
      exact absurd h (by simp)
    · rw [hdm] at h
      dsimp only at h
      have hdl : deck < s.decks.length := (List.getElem?_eq_some_iff.mp hdm).1
      split at h
      · exact absurd h (by simp)
      · next h4 =>
        rcases hcm : d[card]? with _ | c
        · rw [hcm] at h
          exact absurd h (by simp)
        · have hcd : card < d.length := (List.getElem?_eq_some_iff.mp hcm).1
          have hdd : s.decks.getD deck [] = d := getD_eq_of_some s.decks deck [] d hdm
          refine ⟨hdl, by omega, ?_⟩
          rw [hdd]
          exact hcd

theorem run_preserved_ok_shape (s : State) (index : Nat)
    (h : (s.run (Action.PurchaseReserved index)).2 = true) :
    ∃ p, s.players[s.turn]? = some p ∧ index < p.reserved.length := by
  unfold State.run at h
  rcases hp : s.players[s.turn]? with _ | player
  · rw [hp] at h
    exact absurd h (by simp)
  · rw [hp] at h
    dsimp only at h
    rcases hcm : player.reserved[index]? with _ | c
    · rw [hcm] at h
      exact absurd h (by simp)
    · exact ⟨player, rfl, (List.getElem?_eq_some_iff.mp hcm).1⟩

theorem run_picktwo_ok_shape (s : State) (color : ResourceKind)
    (h : (s.run (Action.PickTwo color)).2 = true) : 4 ≤ s.coins.get color := by
  unfold State.run at h
  rcases hp : s.players[s.turn]? with _ | player
  · rw [hp] at h
    exact absurd h (by simp)
  · rw [hp] at h
    dsimp only at h
    split at h
    · exact absurd h (by simp)
    · next hge => omega

theorem mem_movesPurchase_iff (s st : State) (deck card : Nat) :
    (st, Action.Purchase deck card) ∈ movesPurchase s ↔
      s.run (Action.Purchase deck card) = (st, true) := by
  unfold movesPurchase
  rw [List.mem_filterMap]
  constructor
  · rintro ⟨dc, hdc, hsome⟩
    obtain ⟨h2, h1⟩ := (specApply_eq_some s _ _).mp hsome
    injection h2 with hq1 hq2
    rw [hq1, hq2]
    exact h1
  · intro h1
    refine ⟨(deck, card), ?_, (specApply_eq_some s _ _).mpr ⟨rfl, h1⟩⟩
    rw [mem_card_iter]
    obtain ⟨hv1, hv2, hv3⟩ := run_purchase_ok_shape s deck card (by rw [h1])
    exact ⟨hv1, by omega⟩

theorem mem_movesReserve_iff (s st : State) (deck card : Nat) :
    (st, Action.Reserve deck card) ∈ movesReserve s ↔
      s.run (Action.Reserve deck card) = (st, true) := by
  unfold movesReserve
  rw [List.mem_filterMap]
  constructor
  · rintro ⟨dc, hdc, hsome⟩
    obtain ⟨h2, h1⟩ := (specApply_eq_some s _ _).mp hsome
    injection h2 with hq1 hq2
    rw [hq1, hq2]
    exact h1
  · intro h1
    refine ⟨(deck, card), ?_, (specApply_eq_some s _ _).mpr ⟨rfl, h1⟩⟩
    rw [mem_card_iter]
    obtain ⟨hv1, hv2, hv3⟩ := run_reserve_ok_shape s deck card (by rw [h1])
    exact ⟨hv1, by omega⟩

theorem mem_movesPurchaseReserved_iff (s st : State) (index : Nat) :
    (st, Action.PurchaseReserved index) ∈ movesPurchaseReserved s ↔
      s.run (Action.PurchaseReserved index) = (st, true) := by
  unfold movesPurchaseReserved
  rw [List.mem_filterMap]
  constructor
  · rintro ⟨i, hi, hsome⟩
    obtain ⟨h2, h1⟩ := (specApply_eq_some s _ _).mp hsome
    injection h2 with hq
    rw [hq]
    exact h1
  · intro h1
    obtain ⟨p, hp, hidx⟩ := run_preserved_ok_shape s index (by rw [h1])
    refine ⟨index, ?_, (specApply_eq_some s _ _).mpr ⟨rfl, h1⟩⟩
    rw [List.mem_range, hp]
    exact hidx

theorem mem_movesPickThree_iff (s st : State) (one two three : ResourceKind) :
    (st, Action.PickThree one two three) ∈ movesPickThree s ↔
      ((one, two, three) ∈ CANDIDATES ∧
        s.run (Action.PickThree one two three) = (st, true)) := by
  unfold movesPickThree State.pick_three_iter
  rw [List.mem_filterMap]
  constructor
  · rintro ⟨ott, hott, hsome⟩
    obtain ⟨h2, h1⟩ := (specApply_eq_some s _ _).mp hsome
    injection h2 with hq1 hq2 hq3
    rw [hq1, hq2, hq3]
    exact ⟨hott, h1⟩
  · rintro ⟨hcand, h1⟩
    exact ⟨(one, two, three), hcand, (specApply_eq_some s _ _).mpr ⟨rfl, h1⟩⟩

theorem mem_movesPickTwo_iff (s st : State) (color : ResourceKind) :
    (st, Action.PickTwo color) ∈ movesPickTwo s ↔
      s.run (Action.PickTwo color) = (st, true) := by
  unfold movesPickTwo State.pick_two_iter
  rw [List.mem_filterMap]
  constructor
  · rintro ⟨c2, hc2, hsome⟩
    obtain ⟨h2, h1⟩ := (specApply_eq_some s _ _).mp hsome
    injection h2 with hq
    rw [hq]
    exact h1
  · intro h1
    have h4 := run_picktwo_ok_shape s color (by rw [h1])
    refine ⟨color, ?_, (specApply_eq_some s _ _).mpr ⟨rfl, h1⟩⟩
    rw [List.mem_filter]
    exact ⟨mem_kindList color, by simpa using h4⟩

theorem movesPurchase_shape (s : State) :
    ∀ x ∈ movesPurchase s, ∃ deck card, x.2 = Action.Purchase deck card := by
  intro x hx
  unfold movesPurchase at hx
  rw [List.mem_filterMap] at hx
  obtain ⟨dc, -, hsome⟩ := hx
  exact ⟨dc.1, dc.2, ((specApply_eq_some s _ _).mp hsome).1⟩

theorem movesPurchaseReserved_shape (s : State) :
    ∀ x ∈ movesPurchaseReserved s, ∃ index, x.2 = Action.PurchaseReserved index := by
  intro x hx
  unfold movesPurchaseReserved at hx
  rw [List.mem_filterMap] at hx
  obtain ⟨i, -, hsome⟩ := hx
  exact ⟨i, ((specApply_eq_some s _ _).mp hsome).1⟩

theorem movesPickThree_shape (s : State) :
    ∀ x ∈ movesPickThree s, ∃ one two three, x.2 = Action.PickThree one two three := by
  intro x hx
  unfold movesPickThree at hx
  rw [List.mem_filterMap] at hx
  obtain ⟨ott, -, hsome⟩ := hx
  exact ⟨ott.1, ott.2.1, ott.2.2, ((specApply_eq_some s _ _).mp hsome).1⟩

theorem movesPickTwo_shape (s : State) :
    ∀ x ∈ movesPickTwo s, ∃ color, x.2 = Action.PickTwo color := by
  intro x hx
  unfold movesPickTwo at hx
  rw [List.mem_filterMap] at hx
  obtain ⟨c2, -, hsome⟩ := hx
  exact ⟨c2, ((specApply_eq_some s _ _).mp hsome).1⟩

theorem movesReserve_shape (s : State) :
    ∀ x ∈ movesReserve s, ∃ deck card, x.2 = Action.Reserve deck card := by
  intro x hx
  unfold movesReserve at hx
  rw [List.mem_filterMap] at hx
  obtain ⟨dc, -, hsome⟩ := hx
  exact ⟨dc.1, dc.2, ((specApply_eq_some s _ _).mp hsome).1⟩

end Splendor

namespace Splendor

/-- Claim C9 fails as stated: with one coin of every kind, applying
`PickThree(Green, Red, Blue)` to a clone succeeds, yet the generator never
returns that (ordered) action — it only enumerates the ten canonically
ordered triples.  So the generator does not return *exactly* the pairs
whose application succeeds. -/
theorem moves_not_all_successes_cex :
    sOnes.turn < sOnes.players.length ∧
      (sOnes.run (Action.PickThree ResourceKind.Green ResourceKind.Red
        ResourceKind.Blue)).2 = true ∧
      ∀ x ∈ moves sOnes,
        x.2 ≠ Action.PickThree ResourceKind.Green ResourceKind.Red ResourceKind.Blue :=
  ⟨by decide, by decide, by decide⟩

/-- Claim C9 (amended): the move generator returns, in the fixed order
Purchase, PurchaseReserved, PickThree, PickTwo, Reserve, exactly the pairs
(resulting state, action) whose speculative application succeeds, drawn
from the candidate actions it enumerates: every visible (deck, slot) pair
for Purchase and Reserve, every reserved index for PurchaseReserved, the
ten canonically ordered distinct triples for PickThree, every kind for
PickTwo — and never the always-legal Skip (nor the non-canonical orderings
of a PickThree triple); each returned state equals the result of
`State::run` on the input state with the paired action. -/
theorem moves_characterization (s : State) :
    moves s = movesPurchase s ++ movesPurchaseReserved s ++ movesPickThree s ++
        movesPickTwo s ++ movesReserve s ∧
      (∀ x ∈ moves s, s.run x.2 = (x.1, true)) ∧
      (∀ st deck card, ((st, Action.Purchase deck card) ∈ moves s ↔
        s.run (Action.Purchase deck card) = (st, true))) ∧
      (∀ st index, ((st, Action.PurchaseReserved index) ∈ moves s ↔
        s.run (Action.PurchaseReserved index) = (st, true))) ∧
      (∀ st one two three, ((st, Action.PickThree one two three) ∈ moves s ↔
        ((one, two, three) ∈ CANDIDATES ∧
          s.run (Action.PickThree one two three) = (st, true)))) ∧
      (∀ st color, ((st, Action.PickTwo color) ∈ moves s ↔
        s.run (Action.PickTwo color) = (st, true))) ∧
      (∀ st deck card, ((st, Action.Reserve deck card) ∈ moves s ↔
        s.run (Action.Reserve deck card) = (st, true))) ∧
      (∀ st, (st, Action.Skip) ∉ moves s) ∧
      (∀ x ∈ movesPurchase s, ∃ deck card, x.2 = Action.Purchase deck card) ∧
      (∀ x ∈ movesPurchaseReserved s, ∃ index, x.2 = Action.PurchaseReserved index) ∧
      (∀ x ∈ movesPickThree s, ∃ one two three, x.2 = Action.PickThree one two three) ∧
      (∀ x ∈ movesPickTwo s, ∃ color, x.2 = Action.PickTwo color) ∧
      (∀ x ∈ movesReserve s, ∃ deck card, x.2 = Action.Reserve deck card) := by
  refine ⟨rfl, mem_moves_run s, ?_, ?_, ?_, ?_, ?_, ?_,
    movesPurchase_shape s, movesPurchaseReserved_shape s, movesPickThree_shape s,
    movesPickTwo_shape s, movesReserve_shape s⟩
  · intro st deck card
    constructor
    · intro hx
      rcases List.mem_append.mp hx with hx | hx
      rotate_left
      · obtain ⟨d2, c2, hq⟩ := movesReserve_shape s _ hx
        exact absurd hq (by simp)
      rcases List.mem_append.mp hx with hx | hx
      rotate_left
      · obtain ⟨c2, hq⟩ := movesPickTwo_shape s _ hx
        exact absurd hq (by simp)
      rcases List.mem_append.mp hx with hx | hx
      rotate_left
      · obtain ⟨o2, t2, h2, hq⟩ := movesPickThree_shape s _ hx
        exact absurd hq (by simp)
      rcases List.mem_append.mp hx with hx | hx
      · exact (mem_movesPurchase_iff s st deck card).mp hx
      · obtain ⟨i2, hq⟩ := movesPurchaseReserved_shape s _ hx
        exact absurd hq (by simp)
    · intro h1
      exact List.mem_append.mpr (Or.inl (List.mem_append.mpr (Or.inl
        (List.mem_append.mpr (Or.inl (List.mem_append.mpr (Or.inl
          ((mem_movesPurchase_iff s st deck card).mpr h1))))))))
  · intro st index
    constructor
    · intro hx
      rcases List.mem_append.mp hx with hx | hx
      rotate_left
      · obtain ⟨d2, c2, hq⟩ := movesReserve_shape s _ hx
        exact absurd hq (by simp)
      rcases List.mem_append.mp hx with hx | hx
      rotate_left
      · obtain ⟨c2, hq⟩ := movesPickTwo_shape s _ hx
        exact absurd hq (by simp)
      rcases List.mem_append.mp hx with hx | hx
      rotate_left
      · obtain ⟨o2, t2, h2, hq⟩ := movesPickThree_shape s _ hx
        exact absurd hq (by simp)
      rcases List.mem_append.mp hx with hx | hx
      · obtain ⟨d2, c2, hq⟩ := movesPurchase_shape s _ hx
        exact absurd hq (by simp)
      · exact (mem_movesPurchaseReserved_iff s st index).mp hx
    · intro h1
      exact List.mem_append.mpr (Or.inl (List.mem_append.mpr (Or.inl
        (List.mem_append.mpr (Or.inl (List.mem_append.mpr (Or.inr
          ((mem_movesPurchaseReserved_iff s st index).mpr h1))))))))
  · intro st one two three
    constructor
    · intro hx
      rcases List.mem_append.mp hx with hx | hx
      rotate_left
      · obtain ⟨d2, c2, hq⟩ := movesReserve_shape s _ hx
        exact absurd hq (by simp)
      rcases List.mem_append.mp hx with hx | hx
      rotate_left
      · obtain ⟨c2, hq⟩ := movesPickTwo_shape s _ hx
        exact absurd hq (by simp)
      rcases List.mem_append.mp hx with hx | hx
      rotate_left
      · exact (mem_movesPickThree_iff s st one two three).mp hx
      rcases List.mem_append.mp hx with hx | hx
      · obtain ⟨d2, c2, hq⟩ := movesPurchase_shape s _ hx
        exact absurd hq (by simp)
      · obtain ⟨i2, hq⟩ := movesPurchaseReserved_shape s _ hx
        exact absurd hq (by simp)
    · rintro ⟨hcand, h1⟩
      exact List.mem_append.mpr (Or.inl (List.mem_append.mpr (Or.inl
        (List.mem_append.mpr (Or.inr
          ((mem_movesPickThree_iff s st one two three).mpr ⟨hcand, h1⟩))))))
  · intro st color
    constructor
    · intro hx
      rcases List.mem_append.mp hx with hx | hx
      rotate_left
      · obtain ⟨d2, c2, hq⟩ := movesReserve_shape s _ hx
        exact absurd hq (by simp)
      rcases List.mem_append.mp hx with hx | hx
      rotate_left
      · exact (mem_movesPickTwo_iff s st color).mp hx
      rcases List.mem_append.mp hx with hx | hx
      rotate_left
      · obtain ⟨o2, t2, h2, hq⟩ := movesPickThree_shape s _ hx
        exact absurd hq (by simp)
      rcases List.mem_append.mp hx with hx | hx
      · obtain ⟨d2, c2, hq⟩ := movesPurchase_shape s _ hx
        exact absurd hq (by simp)
      · obtain ⟨i2, hq⟩ := movesPurchaseReserved_shape s _ hx
        exact absurd hq (by simp)
    · intro h1
      exact List.mem_append.mpr (Or.inl (List.mem_append.mpr (Or.inr
        ((mem_movesPickTwo_iff s st color).mpr h1))))
  · intro st deck card
    constructor
    · intro hx
      rcases List.mem_append.mp hx with hx | hx
      rotate_left
      · exact (mem_movesReserve_iff s st deck card).mp hx
      rcases List.mem_append.mp hx with hx | hx
      rotate_left
      · obtain ⟨c2, hq⟩ := movesPickTwo_shape s _ hx
        exact absurd hq (by simp)
      rcases List.mem_append.mp hx with hx | hx
      rotate_left
      · obtain ⟨o2, t2, h2, hq⟩ := movesPickThree_shape s _ hx
        exact absurd hq (by simp)
      rcases List.mem_append.mp hx with hx | hx
      · obtain ⟨d2, c2, hq⟩ := movesPurchase_shape s _ hx
        exact absurd hq (by simp)
      · obtain ⟨i2, hq⟩ := movesPurchaseReserved_shape s _ hx
        exact absurd hq (by simp)
    · intro h1
      exact List.mem_append.mpr (Or.inr ((mem_movesReserve_iff s st deck card).mpr h1))
  · intro st hx
    rcases List.mem_append.mp hx with hx | hx
    rotate_left
    · obtain ⟨d2, c2, hq⟩ := movesReserve_shape s _ hx
      exact absurd hq (by simp)
    rcases List.mem_append.mp hx with hx | hx
    rotate_left
    · obtain ⟨c2, hq⟩ := movesPickTwo_shape s _ hx
      exact absurd hq (by simp)
    rcases List.mem_append.mp hx with hx | hx
    rotate_left
    · obtain ⟨o2, t2, h2, hq⟩ := movesPickThree_shape s _ hx
      exact absurd hq (by simp)
    rcases List.mem_append.mp hx with hx | hx
    · obtain ⟨d2, c2, hq⟩ := movesPurchase_shape s _ hx
      exact absurd hq (by simp)
    · obtain ⟨i2, hq⟩ := movesPurchaseReserved_shape s _ hx
      exact absurd hq (by simp)

theorem moves_characterization_witness :
    ((sCard.run (Action.Purchase 0 0)).1, Action.Purchase 0 0) ∈ moves sCard ∧
      (∀ st, (st, Action.Skip) ∉ moves sCard) :=
  ⟨((moves_characterization sCard).2.2.1 (sCard.run (Action.Purchase 0 0)).1 0 0).mpr
      (by decide),
   (moves_characterization sCard).2.2.2.2.2.2.2.1⟩

end Splendor

namespace Splendor

/-! ## Totality of the alpha-beta search (claim C10) -/

theorem run_nobels (s : State) (a : Action) : (s.run a).1.nobels = s.nobels := by
  unfold State.run
  rcases hp : s.players[s.turn]? with _ | player
  · rfl
  · cases a <;> dsimp only <;> (repeat' split) <;>
      first
      | rfl
      | exact (change_player_fields _).2.2.2

theorem player_heuristic_some (s : State) (p : Player) (hn : s.nobels = [])
    (hsc : p.score ≤ 14) : ∃ v, player_heuristic s p = some v := by
  unfold player_heuristic
  rw [if_neg (by omega), hn]
  exact ⟨_, rfl⟩

theorem maxScoreGo_isSome (s : State) (depth beta : Int)
    (hg : ¬(s.turn = 0 ∧ depth ≤ 0)) (l : List {x : State × Action // x ∈ moves s}) :
    ∀ (alpha : Int) (r : Int × Action),
      (∀ x ∈ moves s, ∀ a2 b2 : Int,
        (max_score x.1 (depth - 1) a2 b2).isSome = true) →
      (maxScoreGo s depth beta hg l alpha r).isSome = true := by
  induction l with
  | nil =>
    intro alpha r _
    rw [maxScoreGo.eq_def]
    rfl
  | cons x rest ih =>
    intro alpha r hIH
    rw [maxScoreGo.eq_def]
    dsimp only
    have hx := hIH x.1 x.2 (-beta) (-alpha)
    rcases hmx : max_score x.1.1 (depth - 1) (-beta) (-alpha) with _ | v
    · rw [hmx] at hx
      exact absurd hx (by simp)
    · dsimp only
      split
      · split
        · simp
        · exact ih (max alpha (-v.1)) (-v.1, x.1.2) hIH
      · exact ih alpha r hIH

theorem max_score_isSome :
    ∀ (n : Nat) (s : State) (depth alpha beta : Int), searchMeasure s depth ≤ n →
      2 ≤ s.players.length → s.turn < s.players.length → s.nobels = [] →
      (max_score s depth alpha beta).isSome = true := by
  intro n
  induction n using Nat.strong_induction_on with
  | _ n ih =>
    intro s depth alpha beta hmu h2 hturn hnob
    rw [max_score.eq_def]
    split
    · split <;> simp
    · next hfin =>
      split
      · next hg =>
        have hsc : ∀ p ∈ s.players, p.score ≤ 14 := by
          intro p hp
          by_contra hgt
          push_neg at hgt
          apply hfin
          unfold State.is_finished
          rw [hg.1]
          simp only [beq_self_eq_true, Bool.true_and, List.any_eq_true]
          exact ⟨p, hp, decide_eq_true hgt⟩
        have h0l : 0 < s.players.length := by omega
        have h1l : 1 < s.players.length := by omega
        unfold heuristic
        rw [List.getElem?_eq_getElem h0l, List.getElem?_eq_getElem h1l]
        dsimp only
        obtain ⟨v0, hv0⟩ := player_heuristic_some s s.players[0] hnob
          (hsc _ (List.getElem_mem h0l))
        obtain ⟨v1, hv1⟩ := player_heuristic_some s s.players[1] hnob
          (hsc _ (List.getElem_mem h1l))
        rw [hv0, hv1]
        rfl
      · next hg =>
        apply maxScoreGo_isSome
        intro x hx a2 b2
        have hrun := mem_moves_run s x hx
        obtain ⟨-, hlen, ht2⟩ := run_ok_shape s x.2 x.1 hrun
        have hdec := searchMeasure_lt s x.1 x.2 depth hrun hg
        have hlt2 : x.1.turn < x.1.players.length := by
          rw [hlen, ht2]
          exact Nat.mod_lt _ (by omega)
        have hnob2 : x.1.nobels = [] := by
          have hq := run_nobels s x.2
          rw [hrun] at hq
          rw [← hnob]
          exact hq
        exact ih (searchMeasure x.1 (depth - 1)) (by omega) x.1 (depth - 1) a2 b2 le_rfl
          (by omega) hlt2 hnob2

/-- Claim C10 fails as stated — on two independent inputs inside the
claim's domain.  With exactly one player, the horizon heuristic indexes
`players[1]` and panics.  With two players but a nobel whose cost exceeds
the players' permanent holdings, the heuristic's unguarded `usize`
subtraction underflows (a checked-arithmetic panic), so the search again
returns no value. -/
theorem max_score_partiality_cex :
    (0 < sOnes.players.length ∧ sOnes.turn < sOnes.players.length ∧
      max_score sOnes 0 (-2000000000) 2000000000 = none) ∧
    (2 ≤ sNobel.players.length ∧ sNobel.turn < sNobel.players.length ∧
      max_score sNobel 0 (-2000000000) 2000000000 = none) := by
  constructor
  · refine ⟨by decide, by decide, ?_⟩
    rw [max_score.eq_def]
    rw [show sOnes.is_finished = false from by decide]
    rw [if_neg Bool.false_ne_true]
    rw [dif_pos (show sOnes.turn = 0 ∧ (0 : Int) ≤ 0 from ⟨by decide, le_refl 0⟩)]
    rw [show heuristic sOnes = none from by decide]
    rfl
  · refine ⟨by decide, by decide, ?_⟩
    rw [max_score.eq_def]
    rw [show sNobel.is_finished = false from by decide]
    rw [if_neg Bool.false_ne_true]
    rw [dif_pos (show sNobel.turn = 0 ∧ (0 : Int) ≤ 0 from ⟨by decide, le_refl 0⟩)]
    rw [show heuristic sNobel = none from by decide]
    rfl

/-- Claim C10 (amended): for every state with at least two players, a valid
turn index and an empty nobel list, and every depth and (alpha, beta)
window, `max_score` terminates (it is a total function, defined by
well-founded recursion on the search measure) and returns a (score, action)
value; when the state admits no legal generated move it returns cleanly
with the placeholder `Skip` action.  The empty-nobel-list restriction is
forced by the checked-arithmetic panic in the heuristic's nobel loop and is
preserved by `State::run`; the score-shift guard never fires because the
heuristic is only evaluated at unfinished seat-0 states, where every score
is at most 14. -/
theorem max_score_total (s : State) (depth alpha beta : Int)
    (h2 : 2 ≤ s.players.length) (hturn : s.turn < s.players.length)
    (hn : s.nobels = []) :
    (∃ v, max_score s depth alpha beta = some v) ∧
      (moves s = [] → ∀ v, max_score s depth alpha beta = some v →
        v.2 = Action.Skip) := by
  constructor
  · exact Option.isSome_iff_exists.mp
      (max_score_isSome (searchMeasure s depth) s depth alpha beta le_rfl h2 hturn hn)
  · intro hmv v hv
    rw [max_score.eq_def] at hv
    split at hv
    · split at hv <;> (injection hv with hv1; rw [← hv1])
    · split at hv
      · rcases hh : heuristic s with _ | q
        · rw [hh] at hv
          exact absurd hv (by simp)
        · rw [hh] at hv
          injection hv with hv1
          rw [← hv1]
      · have hlen0 : (moves s).attach.length = 0 := by simp [hmv]
        have hat : (moves s).attach = [] := List.length_eq_zero.mp hlen0
        rw [hat, maxScoreGo.eq_def] at hv
        injection hv with hv1
        rw [← hv1]

theorem max_score_total_witness :
    2 ≤ sEmpty2.players.length ∧ sEmpty2.turn < sEmpty2.players.length ∧
      sEmpty2.nobels = [] ∧ moves sEmpty2 = [] ∧
      (∃ v, max_score sEmpty2 5 (-2000000000) 2000000000 = some v) ∧
      (∀ v, max_score sEmpty2 5 (-2000000000) 2000000000 = some v →
        v.2 = Action.Skip) := by
  have h := max_score_total sEmpty2 5 (-2000000000) 2000000000 (by decide) (by decide)
    (by decide)
  exact ⟨by decide, by decide, by decide, by decide, h.1, h.2 (by decide)⟩

end Splendor
